import Mathlib

/-!
Verification development for the SynMap schema-mapping plugin core
(`SynMap.py`): the name normalizer, the SQL `CREATE TABLE` extractor, the
table-suffix folding, and the fuzzy auto-mapper
(`auto_map_attributes_with_synonyms`, built on fuzzywuzzy's
`process.extract` / `fuzz.partial_ratio`, which in turn are built on
difflib's `SequenceMatcher`).

Strings are modelled as `List Char`.  Unicode-dependent primitives
(`unicodedata.normalize('NFKD', ·)`, combining-class test, `str.lower`,
`str.upper`, `\w`, `\s`, `str.strip`) are modelled for the character
repertoire the program works with: ASCII plus the Latin-1 accented letters
(identity outside it); Python's float arithmetic in `difflib.ratio` is
modelled by exact rationals.
-/

abbrev Str := List Char

/-- Python whitespace for `str.strip` / regex `\s` (ASCII repertoire). -/
def isPySpace (c : Char) : Bool :=
  c = ' ' || c = '\t' || c = '\n' || c = '\r' || c = '\x0b' || c = '\x0c'

/-- Regex `\w` word character (ASCII repertoire): alphanumeric or underscore. -/
def isPyWord (c : Char) : Bool :=
  (97 ≤ c.toNat && c.toNat ≤ 122) || (65 ≤ c.toNat && c.toNat ≤ 90) ||
    (48 ≤ c.toNat && c.toNat ≤ 57) || c = '_'

def isAsciiLetter (c : Char) : Bool :=
  (97 ≤ c.toNat && c.toNat ≤ 122) || (65 ≤ c.toNat && c.toNat ≤ 90)

/-- `str.lower` on one character (ASCII case mapping; accented letters are
decomposed before this is applied in `normalize_str`). -/
def pyLowerChar (c : Char) : Char :=
  if 65 ≤ c.toNat ∧ c.toNat ≤ 90 then Char.ofNat (c.toNat + 32) else c

/-- `str.upper` on one character (ASCII case mapping). -/
def pyUpperChar (c : Char) : Char :=
  if 97 ≤ c.toNat ∧ c.toNat ≤ 122 then Char.ofNat (c.toNat - 32) else c

/-- `str.strip()`: drop leading and trailing whitespace. -/
def pyStrip (s : Str) : Str :=
  ((s.dropWhile isPySpace).reverse.dropWhile isPySpace).reverse

/-- Modelled NFKD decompositions for the Latin-1 accented letters
(`unicodedata.normalize('NFKD', ·)`): each decomposes into a base letter
followed by one combining mark. -/
def accentTable : List (Char × Char × Char) :=
  [('À', 'A', '\u0300'), ('Á', 'A', '\u0301'), ('Â', 'A', '\u0302'),
   ('Ã', 'A', '\u0303'), ('Ä', 'A', '\u0308'), ('Ç', 'C', '\u0327'),
   ('È', 'E', '\u0300'), ('É', 'E', '\u0301'), ('Ê', 'E', '\u0302'),
   ('Ë', 'E', '\u0308'), ('Ì', 'I', '\u0300'), ('Í', 'I', '\u0301'),
   ('Î', 'I', '\u0302'), ('Ï', 'I', '\u0308'), ('Ñ', 'N', '\u0303'),
   ('Ò', 'O', '\u0300'), ('Ó', 'O', '\u0301'), ('Ô', 'O', '\u0302'),
   ('Õ', 'O', '\u0303'), ('Ö', 'O', '\u0308'), ('Ù', 'U', '\u0300'),
   ('Ú', 'U', '\u0301'), ('Û', 'U', '\u0302'), ('Ü', 'U', '\u0308'),
   ('Ý', 'Y', '\u0301'),
   ('à', 'a', '\u0300'), ('á', 'a', '\u0301'), ('â', 'a', '\u0302'),
   ('ã', 'a', '\u0303'), ('ä', 'a', '\u0308'), ('ç', 'c', '\u0327'),
   ('è', 'e', '\u0300'), ('é', 'e', '\u0301'), ('ê', 'e', '\u0302'),
   ('ë', 'e', '\u0308'), ('ì', 'i', '\u0300'), ('í', 'i', '\u0301'),
   ('î', 'i', '\u0302'), ('ï', 'i', '\u0308'), ('ñ', 'n', '\u0303'),
   ('ò', 'o', '\u0300'), ('ó', 'o', '\u0301'), ('ô', 'o', '\u0302'),
   ('õ', 'o', '\u0303'), ('ö', 'o', '\u0308'), ('ù', 'u', '\u0300'),
   ('ú', 'u', '\u0301'), ('û', 'u', '\u0302'), ('ü', 'u', '\u0308'),
   ('ý', 'y', '\u0301'), ('ÿ', 'y', '\u0308')]

/-- NFKD decomposition of one character (identity below U+00C0, table for
the Latin-1 letters, identity elsewhere — modelled repertoire). -/
def nfkdChar (c : Char) : List Char :=
  if c.toNat < 192 then [c]
  else
    match accentTable.find? (fun e => e.1 = c) with
    | some e => [e.2.1, e.2.2]
    | none => [c]

/-- `unicodedata.combining(c) != 0` (modelled: the Combining Diacritical
Marks block U+0300–U+036F). -/
def isCombining (c : Char) : Bool :=
  768 ≤ c.toNat && c.toNat ≤ 879

/-- `normalize_str` (SynMap.py lines 90–93): NFKD-decompose, drop combining
marks, lower-case, remove underscores, strip whitespace. -/
def normalize_str (s : Str) : Str :=
  pyStrip (((((s.map nfkdChar).flatten).filter
    (fun c => !isCombining c)).map pyLowerChar).filter (fun c => c ≠ '_'))

/-! ## Insertion-ordered dictionaries (Python `dict` model) -/

/-- `d[k] = v` on a Python dict: replace in place if the key exists,
append at the end otherwise. -/
def dictSet {α β : Type} [DecidableEq α] : List (α × β) → α → β → List (α × β)
  | [], a, b => [(a, b)]
  | (k, v) :: t, a, b => if k = a then (a, b) :: t else (k, v) :: dictSet t a b

/-- `d.get(k)` on a Python dict (first — and only — entry with the key). -/
def dictGet {α β : Type} [DecidableEq α] : List (α × β) → α → Option β
  | [], _ => none
  | (k, v) :: t, a => if k = a then some v else dictGet t a

/-! ## SQL `CREATE TABLE` extraction (`parse_sql`, SynMap.py lines 141–169)

The regex `CREATE\s+TABLE\s+((?:\w+\.)?(\w+))\s*\((.*?)\)\s*(?:;|#)` with
`DOTALL | IGNORECASE` is modelled by a direct scanner with the same
semantics; `finditer` scans every position and continues after a match. -/

/-- Case-insensitive ASCII character comparison (regex `IGNORECASE`). -/
def eqCI (p c : Char) : Bool := pyUpperChar p = pyUpperChar c

/-- Match a literal pattern case-insensitively at the start of `s`;
return the rest on success. -/
def matchLitCI : Str → Str → Option Str
  | [], s => some s
  | _ :: _, [] => none
  | p :: ps, c :: cs => if eqCI p c then matchLitCI ps cs else none

/-- `\s+`: at least one whitespace character, greedy. -/
def wsPlus : Str → Option Str
  | [] => none
  | c :: cs => if isPySpace c then some (cs.dropWhile isPySpace) else none

/-- Lazy `(.*?)\)\s*(?:;|#)`: the shortest body such that a `)` followed by
optional whitespace and a `;` or `#` terminates the block; returns the body
(group 3) and the rest after the terminator. -/
def lazyColumns : Str → Option (Str × Str)
  | [] => none
  | c :: cs =>
    if c = ')' then
      match cs.dropWhile isPySpace with
      | ';' :: r => some ([], r)
      | '#' :: r => some ([], r)
      | _ =>
        match lazyColumns cs with
        | some (sec, r) => some (')' :: sec, r)
        | none => none
    else
      match lazyColumns cs with
      | some (sec, r) => some (c :: sec, r)
      | none => none

/-- Try the whole `CREATE TABLE` pattern at the start of `s`; on success
return the bare table name (group 2), the column body (group 3) and the
rest of the input after the match.  `((?:\w+\.)?(\w+))`: when a dot follows
the first word-run with no word-run after it, the regex falls back to the
unqualified alternative, which then fails at `\s*\(` — returning the rest
starting at the dot reproduces that failure. -/
def tryMatchAt (s : Str) : Option ((Str × Str) × Str) :=
  match matchLitCI "CREATE".toList s with
  | none => none
  | some s1 =>
  match wsPlus s1 with
  | none => none
  | some s2 =>
  match matchLitCI "TABLE".toList s2 with
  | none => none
  | some s3 =>
  match wsPlus s3 with
  | none => none
  | some s4 =>
  let w1 := s4.takeWhile isPyWord
  let r1 := s4.dropWhile isPyWord
  if w1 = [] then none
  else
    let tr : Str × Str :=
      match r1 with
      | '.' :: r2 =>
        let w2 := r2.takeWhile isPyWord
        if w2 = [] then (w1, r1) else (w2, r2.dropWhile isPyWord)
      | _ => (w1, r1)
    match tr.2.dropWhile isPySpace with
    | '(' :: r4 =>
      match lazyColumns r4 with
      | some (sec, rest) => some ((tr.1, sec), rest)
      | none => none
    | _ => none

/-- `finditer`: scan left to right, emitting non-overlapping matches; the
fuel is the input length (every match consumes at least one character). -/
def scanSqlAux : Nat → Str → List (Str × Str)
  | 0, _ => []
  | _ + 1, [] => []
  | fuel + 1, c :: cs =>
    match tryMatchAt (c :: cs) with
    | some (m, rest) => m :: scanSqlAux fuel rest
    | none => scanSqlAux fuel cs

def scanSql (s : Str) : List (Str × Str) := scanSqlAux s.length s

/-- `re.match(r'^(.*)_[a-zA-Z]$', table_name)` and `group(1)` folding
(SynMap.py lines 157–158 and 82–83).  `.` does not cross a newline and `$`
also matches just before one trailing newline, so a match exists exactly
when the name is `A ++ "_c"` or `A ++ "_c\n"` with `c` an ASCII letter and
`A` newline-free; the fold returns `A`, else the name unchanged. -/
def strip_table_suffix (name : Str) : Str :=
  match name.reverse with
  | c1 :: c2 :: rest =>
    if c1 = '\n' then
      match rest with
      | c3 :: rest2 =>
        if c3 = '_' ∧ isAsciiLetter c2 = true ∧ '\n' ∉ rest2 then rest2.reverse
        else name
      | [] => name
    else if c2 = '_' ∧ isAsciiLetter c1 = true ∧ '\n' ∉ rest then rest.reverse
    else name
  | _ => name

/-- `str.splitlines()` (modelled terminators: `\r\n`, `\n`, `\r`). -/
def splitlinesAux : Str → Str → List Str
  | [], acc => [acc.reverse]
  | '\r' :: '\n' :: rest, acc =>
    acc.reverse :: (if rest = [] then [] else splitlinesAux rest [])
  | '\n' :: rest, acc =>
    acc.reverse :: (if rest = [] then [] else splitlinesAux rest [])
  | '\r' :: rest, acc =>
    acc.reverse :: (if rest = [] then [] else splitlinesAux rest [])
  | c :: rest, acc => splitlinesAux rest (c :: acc)

def splitlinesPy (s : Str) : List Str :=
  if s = [] then [] else splitlinesAux s []

def skip_keywords : List Str :=
  ["CONSTRAINT", "PRIMARY", "FOREIGN", "UNIQUE", "CHECK", "WITH", "ALTER"].map
    String.toList

/-- Exact literal match at the start of `s` (`str.startswith`). -/
def litStart : Str → Str → Bool
  | [], _ => true
  | _ :: _, [] => false
  | p :: ps, c :: cs => p = c && litStart ps cs

/-- `line.upper().startswith(skip_keywords)`. -/
def startsWithSkip (l : Str) : Bool :=
  skip_keywords.any (fun k => litStart k (l.map pyUpperChar))

/-- `line.rstrip(',')`: remove all trailing commas. -/
def rstripCommas (l : Str) : Str := (l.reverse.dropWhile (fun c => c = ',')).reverse

/-- `re.match(r'^["\']?(\w+)', line)`: an optional quote, then the leading
word-run (backtracking to the unquoted alternative fails when the first
character is a quote, since a quote is not a word character). -/
def col_match (l : Str) : Option Str :=
  match l with
  | [] => none
  | c :: cs =>
    if c = '"' ∨ c = '\'' then
      match cs.takeWhile isPyWord with
      | [] => none
      | w => some w
    else
      match l.takeWhile isPyWord with
      | [] => none
      | w => some w

/-- One line of the column body: strip, drop trailing commas, skip blank
lines and constraint-keyword lines, else extract the leading identifier. -/
def column_of_line (line : Str) : Option Str :=
  let l := rstripCommas (pyStrip line)
  if l = [] then none
  else if startsWithSkip l then none
  else col_match l

def parse_columns (sec : Str) : List Str :=
  (splitlinesPy sec).foldl
    (fun cols line =>
      match column_of_line line with
      | some w => cols ++ [w]
      | none => cols) []

/-- `parse_sql` (SynMap.py lines 141–169). -/
def parse_sql (sql : Str) : List (Str × List Str) :=
  (scanSql sql).foldl
    (fun d m => dictSet d (strip_table_suffix m.1) (parse_columns m.2)) []

/-- `extract_classes_from_db` (SynMap.py lines 63–85) with the PostGIS
catalog and the QGIS layer opening abstracted as inputs: `tables` is the
`(schema, table_name)` list from `geometry_columns`, and `layerFields`
returns the field list of a table that opens as a valid layer (`none` for
an invalid one, which is silently skipped).  Its name folding is the same
`strip_table_suffix` the SQL parser applies. -/
def extract_classes_from_db (tables : List (Str × Str))
    (layerFields : Str → Str → Option (List Str)) : List (Str × List Str) :=
  tables.foldl
    (fun acc p =>
      match layerFields p.1 p.2 with
      | some fields => dictSet acc (strip_table_suffix p.2) fields
      | none => acc) []

/-! ## difflib `SequenceMatcher` (CPython), as used by `fuzz.partial_ratio`

`SequenceMatcher(None, a, b)`: no junk predicate, so the junk set is empty
and the junk-adjacent extension loops of `find_longest_match` never fire;
the autojunk "popular" elements (when `len(b) >= 200`) are only excluded
from the index `b2j`, exactly as in CPython. -/

/-- Ascending positions of `c` in `b` (the `b2j` entry before autofilter). -/
def posList (b : Str) (c : Char) : List Nat :=
  (List.range b.length).filter (fun j => b.getD j ' ' = c)

/-- autojunk: an element is popular when `len(b) >= 200` and it occurs more
than `len(b) // 100 + 1` times. -/
def isPopular (b : Str) (c : Char) : Bool :=
  200 ≤ b.length && b.length / 100 + 1 < b.count c

/-- `b2j` lookup: positions of `c`, empty for popular elements. -/
def b2jGet (b : Str) (c : Char) : List Nat :=
  if isPopular b c then [] else posList b c

def dictGetD (d : List (Nat × Nat)) (k : Nat) : Nat :=
  match dictGet d k with
  | some v => v
  | none => 0

/-- One `i` iteration of `find_longest_match`: fold the (ascending)
positions of `a[i]` in `b` restricted to `[blo, bhi)` (the `continue` /
`break` of CPython), reading the previous row `j2len` and building the new
row; `i-k+1` and `j-k+1` stay in `Nat` since `k ≤ i+1` and `k ≤ j+1`. -/
def flmStep (b : Str) (blo bhi : Nat) (i : Nat) (c : Char)
    (st : List (Nat × Nat) × (Nat × Nat × Nat)) :
    List (Nat × Nat) × (Nat × Nat × Nat) :=
  let old := st.1
  ((b2jGet b c).filter (fun j => blo ≤ j && j < bhi)).foldl
    (fun st2 j =>
      let k := (if j = 0 then 0 else dictGetD old (j - 1)) + 1
      let nj := dictSet st2.1 j k
      let best := if st2.2.2.2 < k then (i + 1 - k, (j + 1 - k, k)) else st2.2
      (nj, best)) ([], st.2)

/-- The left extension loop (`while besti > alo and bestj > blo ... `);
the junk test is vacuous (empty junk set).  Fuel `besti` bounds the
iterations since `besti` decreases by one each step. -/
def extendLeft (a b : Str) (alo blo : Nat) :
    Nat → Nat → Nat → Nat → Nat × Nat × Nat
  | 0, besti, bestj, bestsize => (besti, bestj, bestsize)
  | fuel + 1, besti, bestj, bestsize =>
    if alo < besti ∧ blo < bestj ∧ a.getD (besti - 1) ' ' = b.getD (bestj - 1) ' '
    then extendLeft a b alo blo fuel (besti - 1) (bestj - 1) (bestsize + 1)
    else (besti, bestj, bestsize)

/-- The right extension loop; fuel `ahi` bounds the iterations. -/
def extendRight (a b : Str) (ahi bhi : Nat) :
    Nat → Nat → Nat → Nat → Nat × Nat × Nat
  | 0, besti, bestj, bestsize => (besti, bestj, bestsize)
  | fuel + 1, besti, bestj, bestsize =>
    if besti + bestsize < ahi ∧ bestj + bestsize < bhi ∧
        a.getD (besti + bestsize) ' ' = b.getD (bestj + bestsize) ' '
    then extendRight a b ahi bhi fuel besti bestj (bestsize + 1)
    else (besti, bestj, bestsize)

/-- `SequenceMatcher.find_longest_match(alo, ahi, blo, bhi)`. -/
def find_longest_match (a b : Str) (alo ahi blo bhi : Nat) : Nat × Nat × Nat :=
  let res := (List.range' alo (ahi - alo)).foldl
    (fun st i => flmStep b blo bhi i (a.getD i ' ') st) ([], (alo, blo, 0))
  let b1 := extendLeft a b alo blo res.2.1 res.2.1 res.2.2.1 res.2.2.2
  extendRight a b ahi bhi ahi b1.1 b1.2.1 b1.2.2

/-- The recursive split of `get_matching_blocks` (CPython uses an explicit
queue and sorts afterwards; splitting around the longest match and
concatenating in order yields the same sorted list).  Each recursive call
strictly shrinks `(ahi - alo) + (bhi - blo)`, so fuel `la + lb + 1`
never runs out. -/
def gmbRec (a b : Str) : Nat → Nat → Nat → Nat → Nat → List (Nat × Nat × Nat)
  | 0, _, _, _, _ => []
  | fuel + 1, alo, ahi, blo, bhi =>
    let m := find_longest_match a b alo ahi blo bhi
    if m.2.2 = 0 then []
    else
      (if alo < m.1 ∧ blo < m.2.1 then gmbRec a b fuel alo m.1 blo m.2.1 else [])
        ++ [m]
        ++ (if m.1 + m.2.2 < ahi ∧ m.2.1 + m.2.2 < bhi then
              gmbRec a b fuel (m.1 + m.2.2) ahi (m.2.1 + m.2.2) bhi else [])

def blockLt (x y : Nat × Nat × Nat) : Bool :=
  x.1 < y.1 || (x.1 = y.1 && (x.2.1 < y.2.1 || (x.2.1 = y.2.1 && x.2.2 < y.2.2)))

def insertBlock (x : Nat × Nat × Nat) :
    List (Nat × Nat × Nat) → List (Nat × Nat × Nat)
  | [] => [x]
  | y :: ys => if blockLt x y then x :: y :: ys else y :: insertBlock x ys

/-- `matching_blocks.sort()` (ascending lexicographic). -/
def sortBlocks : List (Nat × Nat × Nat) → List (Nat × Nat × Nat)
  | [] => []
  | x :: xs => insertBlock x (sortBlocks xs)

/-- The adjacent-block merge loop of `get_matching_blocks`. -/
def mergeAdjAux : List (Nat × Nat × Nat) → Nat → Nat → Nat → List (Nat × Nat × Nat)
  | [], i1, j1, k1 => if k1 ≠ 0 then [(i1, j1, k1)] else []
  | x :: t, i1, j1, k1 =>
    if i1 + k1 = x.1 ∧ j1 + k1 = x.2.1 then mergeAdjAux t i1 j1 (k1 + x.2.2)
    else (if k1 ≠ 0 then [(i1, j1, k1)] else []) ++ mergeAdjAux t x.1 x.2.1 x.2.2

/-- `SequenceMatcher.get_matching_blocks()`, terminator included. -/
def get_matching_blocks (a b : Str) : List (Nat × Nat × Nat) :=
  let blocks := sortBlocks (gmbRec a b (a.length + b.length + 1) 0 a.length 0 b.length)
  mergeAdjAux blocks 0 0 0 ++ [(a.length, b.length, 0)]

/-- Total matched size, as `SequenceMatcher.ratio()` computes it. -/
def matchesSum (a b : Str) : Nat :=
  (get_matching_blocks a b).foldl (fun acc x => acc + x.2.2) 0

/-- `SequenceMatcher.ratio()` as an exact fraction `(numerator, denominator)`:
`2*M / (len(a)+len(b))`, and `1.0` when both are empty
(difflib `_calculate_ratio`). -/
def ratioFrac (a b : Str) : Nat × Nat :=
  let t := a.length + b.length
  if t = 0 then (1, 1) else (2 * matchesSum a b, t)

/-- Python `round` (half to even) of `num / den`, `den > 0`. -/
def roundHalfEven (num den : Nat) : Nat :=
  let q := num / den
  let r := num % den
  if 2 * r < den then q
  else if den < 2 * r then q + 1
  else if q % 2 = 0 then q else q + 1

/-- `fuzz.partial_ratio` (fuzzywuzzy 0.18.0): equal strings short-circuit
to 100 (`check_for_equal`); otherwise score the shorter string against the
length-aligned window of the longer one for every matching block, return
100 as soon as a ratio exceeds .995 (`200*num > 199*den`), else round
`100 * max(scores)` half-to-even (`utils.intr`). -/
def partial_ratio (s1 s2 : Str) : Nat :=
  if s1 = s2 then 100
  else
    let p := if s1.length ≤ s2.length then (s1, s2) else (s2, s1)
    let shorter := p.1
    let longer := p.2
    let scores := (get_matching_blocks shorter longer).map (fun bl =>
      let lstart := bl.2.1 - bl.1
      let lsub := (longer.drop lstart).take shorter.length
      ratioFrac shorter lsub)
    if scores.any (fun f => 199 * f.2 < 200 * f.1) then 100
    else
      match scores with
      | [] => 0
      | f :: fs =>
        let best := fs.foldl (fun acc x => if acc.1 * x.2 < x.1 * acc.2 then x else acc) f
        roundHalfEven (100 * best.1) best.2

/-- `utils.full_process` (`force_ascii=False`): replace each non-word
character with a space, lower-case, strip. -/
def full_process (s : Str) : Str :=
  pyStrip ((s.map (fun c => if isPyWord c then c else ' ')).map pyLowerChar)

/-- Stable descending insertion by score: the unique stable
descending-by-score sort, as produced both by `heapq.nlargest` and by
`sorted(..., key=score, reverse=True)`. -/
def insertDesc (x : Str × Nat) : List (Str × Nat) → List (Str × Nat)
  | [] => [x]
  | y :: ys => if x.2 < y.2 then y :: insertDesc x ys else x :: y :: ys

def sortDescByScore : List (Str × Nat) → List (Str × Nat)
  | [] => []
  | x :: xs => insertDesc x (sortDescByScore xs)

/-- `process.extract(query, choices, scorer=fuzz.partial_ratio,
limit=len(choices))`: score `full_process(query)` against
`full_process(choice)` for every choice in order (`score_cutoff=0` keeps
them all), then `heapq.nlargest` over all of them — the stable descending
sort. -/
def process_extract (query : Str) (choices : List Str) : List (Str × Nat) :=
  let pq := full_process query
  sortDescByScore (choices.map (fun c => (c, partial_ratio pq (full_process c))))

/-! ## `auto_map_attributes_with_synonyms` (SynMap.py lines 98–136) -/

/-- The candidate list for one attribute: its normalized form, then the
normalized registered synonyms (`synonyms_dict[attr.lower()]`, exact
case-lowered key lookup). -/
def candidatesOf (synonyms_dict : List (Str × List Str)) (attr : Str) : List Str :=
  normalize_str attr ::
    (match dictGet synonyms_dict (attr.map pyLowerChar) with
     | some syns => syns.map normalize_str
     | none => [])

/-- One `(match, score)` result folded into `candidate_matches`: keep it
when it reaches the threshold and is new or strictly better. -/
def cmStep (threshold : Nat) (cm : List (Str × Nat)) (ms : Str × Nat) :
    List (Str × Nat) :=
  if threshold ≤ ms.2 then
    match dictGet cm ms.1 with
    | none => dictSet cm ms.1 ms.2
    | some s0 => if s0 < ms.2 then dictSet cm ms.1 ms.2 else cm
  else cm

/-- `candidate_matches` for one attribute: every candidate's
`process.extract` results folded in order into one insertion-ordered
dict. -/
def buildCandidateMatches (cands : List Str) (normalized_fields : List Str)
    (threshold : Nat) : List (Str × Nat) :=
  cands.foldl
    (fun cm cand => (process_extract cand normalized_fields).foldl (cmStep threshold) cm)
    []

/-- Walk `sorted_matches` and pick the first match not yet consumed. -/
def pickBest : List (Str × Nat) → List Str → Option Str
  | [], _ => none
  | mv :: t, used => if mv.1 ∈ used then pickBest t used else some mv.1

/-- The first original layer field whose normalized form is `bm`
(the recovery loop over `normalized_layer_fields`). -/
def firstWithNorm : List (Str × Str) → Str → Option Str
  | [], _ => none
  | p :: t, bm => if p.2 = bm then some p.1 else firstWithNorm t bm

/-- Processing of one model attribute: build and rank its candidate
matches, pick the best unused field, record the mapping (or the `None`
marker) and consume the field. -/
def autoMapStep (nlf : List (Str × Str)) (normalized_fields : List Str)
    (synonyms_dict : List (Str × List Str)) (threshold : Nat)
    (st : List (Str × Option Str) × List Str) (attr : Str) :
    List (Str × Option Str) × List Str :=
  let cm := buildCandidateMatches (candidatesOf synonyms_dict attr)
    normalized_fields threshold
  match pickBest (sortDescByScore cm) st.2 with
  | some bm =>
    match firstWithNorm nlf bm with
    | some orig => (dictSet st.1 attr (some orig), bm :: st.2)
    | none => st
  | none => (dictSet st.1 attr none, st.2)

/-- The mapping loop of `auto_map_attributes_with_synonyms` (after the
dependency check): the returned dict maps each model attribute to the
chosen original field or to the `None` marker. -/
def auto_map_core (model_attributes layer_fields : List Str)
    (synonyms_dict : List (Str × List Str)) (threshold : Nat) :
    List (Str × Option Str) :=
  let nlf := layer_fields.map (fun f => (f, normalize_str f))
  let normalized_fields := nlf.map (fun p => p.2)
  (model_attributes.foldl (autoMapStep nlf normalized_fields synonyms_dict threshold)
    ([], [])).1

/-- `auto_map_attributes_with_synonyms`: raises `ImportError` when
fuzzywuzzy (`fuzz` / `process`) is unavailable, before any matching work;
otherwise returns the mapping. -/
def auto_map_attributes_with_synonyms (fuzzAvailable : Bool)
    (model_attributes layer_fields : List Str)
    (synonyms_dict : List (Str × List Str)) (threshold : Nat) :
    Except Str (List (Str × Option Str)) :=
  if fuzzAvailable then
    Except.ok (auto_map_core model_attributes layer_fields synonyms_dict threshold)
  else
    Except.error "fuzzywuzzy não está disponível para mapeamento automático".toList

/-- `SYNONYMS_DICT` (SynMap.py lines 174–181). -/
def SYNONYMS_DICT : List (Str × List Str) :=
  [("nome".toList, ["name".toList]),
   ("name".toList, ["nome".toList]),
   ("descricao".toList, ["description".toList, "descrição".toList]),
   ("description".toList, ["descricao".toList, "descrição".toList]),
   ("id".toList, ["identificador".toList, "id".toList]),
   ("codigo".toList, ["code".toList, "codigo".toList])]

/-! ## Inputs and predicates used in the claim statements -/

/-- The exact one-line SQL text of the spec's SqlSchemaExtractor example. -/
def sqlOneLine : Str :=
  "CREATE TABLE public.roads_a (id integer, name varchar(50), CONSTRAINT pk PRIMARY KEY(id));".toList

/-- The same statement with each column on its own line. -/
def sqlMultiLine : Str :=
  "CREATE TABLE public.roads_a (\n  id integer,\n  name varchar(50),\n  CONSTRAINT pk PRIMARY KEY(id)\n);".toList

/-- A table whose columns are named with constraint-keyword prefixes. -/
def sqlKeywordCols : Str :=
  "CREATE TABLE t (\nid integer,\ncheck_date date,\nunique_id integer,\nwith_flag boolean\n);".toList

/-- A table name is of the `…_<single ASCII letter>` shape. -/
def endsUnderscoreLetter (name : Str) : Bool :=
  match name.reverse with
  | c1 :: c2 :: _ => c2 = '_' && isAsciiLetter c1
  | _ => false

/-- Case-insensitive substring test (is the pattern anywhere in `s`). -/
def containsCI (pat : Str) : Str → Bool
  | [] => (matchLitCI pat []).isSome
  | c :: cs => (matchLitCI pat (c :: cs)).isSome || containsCI pat cs

/-- The similarity the auto-mapper computes between one candidate string
and one normalized field (`fuzz.partial_ratio` through the
`process.extract` processor). -/
def candidate_score (cand m : Str) : Nat :=
  partial_ratio (full_process cand) (full_process m)

/-! ## Theorems -/

/-- **C2, counterexample.**  On the exact one-line SQL text of the claim,
`parse_sql` returns `{"roads": ["id"]}` — not the claimed
`{"roads": ["id", "name"]}` — because the column body is split into
physical lines and only the leading identifier of each line is taken. -/
theorem parse_sql_one_line_drops_name :
    parse_sql sqlOneLine = [("roads".toList, ["id".toList])] ∧
    parse_sql sqlOneLine ≠ [("roads".toList, ["id".toList, "name".toList])] := by
  constructor
  · rfl
  · intro h
    rw [show parse_sql sqlOneLine = [("roads".toList, ["id".toList])] from rfl] at h
    simp at h

/-- **C2, amended.**  On the exact one-line SQL text of the claim the
parser returns `{"roads": ["id"]}`: the schema prefix is dropped, the
trailing `_a` suffix is stripped, the constraint clause is skipped, but
column extraction is line-based, so only the leading identifier `id` of
the single physical line is taken; with each column on its own line the
same statement yields the originally claimed `{"roads": ["id", "name"]}`
with both columns in order. -/
theorem parse_sql_one_line_catalog :
    parse_sql sqlOneLine = [("roads".toList, ["id".toList])] ∧
    parse_sql sqlMultiLine = [("roads".toList, ["id".toList, "name".toList])] := by
  exact ⟨rfl, rfl⟩

/-- **C10.**  The constraint filter is a raw prefix test on the upper-cased
line: any line whose upper-cased form starts with one of the skip keywords
contributes no column, even when a column name would be extracted from it;
concretely, the columns `check_date`, `unique_id` and `with_flag` are
silently omitted. -/
theorem keyword_prefixed_columns_omitted :
    (∀ line w, col_match (rstripCommas (pyStrip line)) = some w →
      startsWithSkip (rstripCommas (pyStrip line)) = true →
      column_of_line line = none) ∧
    parse_sql sqlKeywordCols = [("t".toList, ["id".toList])] := by
  refine ⟨?_, by rfl⟩
  intro line w _ hskip
  unfold column_of_line
  by_cases he : rstripCommas (pyStrip line) = []
  · simp [he]
  · simp [he, hskip]

/-- **C10, witness.**  The line `check_date date` names a genuine column
`check_date`, yet is filtered out. -/
theorem keyword_prefixed_columns_omitted_witness :
    column_of_line "check_date date".toList = none ∧
    col_match (rstripCommas (pyStrip "check_date date".toList)) =
      some "check_date".toList :=
  ⟨keyword_prefixed_columns_omitted.1 "check_date date".toList
      "check_date".toList (by decide) (by decide), by decide⟩

/-- **C7, counterexample.**  `"roads_a\n"` does not end in an
underscore-plus-letter (it ends in a newline), so by the claim it should be
returned unchanged; the code folds it to `"roads"`, because `$` in
`^(.*)_[a-zA-Z]$` also matches just before one trailing newline. -/
theorem suffix_fold_eats_trailing_newline :
    strip_table_suffix "roads_a\n".toList = "roads".toList ∧
    endsUnderscoreLetter "roads_a\n".toList = false ∧
    strip_table_suffix "roads_a\n".toList ≠ "roads_a\n".toList := by
  exact ⟨by rfl, by rfl, by decide⟩


/-- **C7, amended.**  For every newline-free table name, the folding strips
exactly the final `_<ASCII letter>` pair when the name has that shape and
returns any other name unchanged (so mid-name underscores are never
touched); `parse_sql` and `extract_classes_from_db` both fold through this
same `strip_table_suffix`.  (With one trailing newline the code also strips
the newline — the counterexample.) -/
theorem suffix_fold_newline_free (name : Str) (hnl : '\n' ∉ name) :
    (endsUnderscoreLetter name = true →
      strip_table_suffix name = name.dropLast.dropLast) ∧
    (endsUnderscoreLetter name = false → strip_table_suffix name = name) := by
  have hnlr : '\n' ∉ name.reverse := fun h => hnl (List.mem_reverse.mp h)
  unfold strip_table_suffix endsUnderscoreLetter
  rcases hr : name.reverse with _ | ⟨c1, _ | ⟨c2, rest⟩⟩
  · exact ⟨fun h => by simp at h, fun _ => rfl⟩
  · exact ⟨fun h => by simp at h, fun _ => rfl⟩
  · have hc1 : c1 ≠ '\n' := by
      intro h
      exact hnlr (hr ▸ (h ▸ List.mem_cons_self c1 (c2 :: rest)))
    have hrest : '\n' ∉ rest := by
      intro h
      exact hnlr (hr ▸ List.mem_cons_of_mem c1 (List.mem_cons_of_mem c2 h))
    have hname : name = (c1 :: c2 :: rest).reverse := by
      rw [← hr, List.reverse_reverse]
    dsimp only
    rw [if_neg hc1]
    by_cases h2 : c2 = '_'
    · subst h2
      by_cases hl : isAsciiLetter c1 = true
      · refine ⟨fun _ => ?_, fun hf => ?_⟩
        · rw [if_pos ⟨rfl, hl, hrest⟩, hname]
          simp [List.dropLast_concat]
        · simp [hl] at hf
      · refine ⟨fun ht => ?_, fun _ => ?_⟩
        · simp [hl] at ht
        · rw [if_neg]
          intro hcon
          exact hl hcon.2.1
    · refine ⟨fun ht => ?_, fun _ => ?_⟩
      · simp [h2] at ht
      · rw [if_neg]
        intro hcon
        exact h2 hcon.1

/-- **C7, amended, witness.**  `"roads_a"` folds to `"roads"`, `"a_b_c"`
folds to `"a_b"` (only the final pair goes), and `"ro_ads"` — whose
underscore is mid-name — is unchanged. -/
theorem suffix_fold_newline_free_witness :
    strip_table_suffix "roads_a".toList = "roads".toList ∧
    strip_table_suffix "a_b_c".toList = "a_b".toList ∧
    strip_table_suffix "ro_ads".toList = "ro_ads".toList :=
  ⟨by rw [(suffix_fold_newline_free "roads_a".toList (by decide)).1 (by decide)]; decide,
   by rw [(suffix_fold_newline_free "a_b_c".toList (by decide)).1 (by decide)]; decide,
   (suffix_fold_newline_free "ro_ads".toList (by decide)).2 (by decide)⟩

theorem tryMatchAt_none_of_no_create (s : Str)
    (h : (matchLitCI "CREATE".toList s).isSome = false) : tryMatchAt s = none := by
  unfold tryMatchAt
  rcases hm : matchLitCI "CREATE".toList s with _ | s1
  · rfl
  · rw [hm] at h
    simp at h

theorem containsCI_tail {pat : Str} {c : Char} {cs : Str}
    (h : containsCI pat (c :: cs) = false) :
    (matchLitCI pat (c :: cs)).isSome = false ∧ containsCI pat cs = false := by
  unfold containsCI at h
  exact ⟨by rcases Bool.or_eq_false_iff.mp h with ⟨h1, _⟩; exact h1,
         by rcases Bool.or_eq_false_iff.mp h with ⟨_, h2⟩; exact h2⟩

theorem scanSqlAux_nil_of_no_create :
    ∀ (fuel : Nat) (s : Str), containsCI "CREATE".toList s = false →
      scanSqlAux fuel s = [] := by
  intro fuel
  induction fuel with
  | zero => intro s _; rfl
  | succ n ih =>
    intro s h
    match s with
    | [] => rfl
    | c :: cs =>
      rcases containsCI_tail h with ⟨h1, h2⟩
      unfold scanSqlAux
      rw [tryMatchAt_none_of_no_create (c :: cs) h1]
      exact ih cs h2

/-- **C6.**  `parse_sql` is a total function; when the scanner finds no
`CREATE TABLE` block the catalog is empty — in particular, any text with no
case-insensitive occurrence of `CREATE` at all yields the empty catalog
(the `ParseEmpty` condition is an empty result, not a failure). -/
theorem parse_sql_empty_on_no_match (s : Str) :
    (scanSql s = [] → parse_sql s = []) ∧
    (containsCI "CREATE".toList s = false → parse_sql s = []) := by
  constructor
  · intro h
    unfold parse_sql
    rw [h]
    rfl
  · intro h
    unfold parse_sql scanSql
    rw [scanSqlAux_nil_of_no_create s.length s h]
    rfl

/-- **C6, witness.**  `"SELECT 1;"` contains no `CREATE TABLE` block and
parses to the empty catalog. -/
theorem parse_sql_empty_on_no_match_witness :
    parse_sql "SELECT 1;".toList = [] :=
  (parse_sql_empty_on_no_match "SELECT 1;".toList).2 (by decide)

/-! ### Idempotence of `normalize_str` (C5) -/

theorem char_toNat_ofNat {n : Nat} (h : n < 55296) : (Char.ofNat n).toNat = n := by
  unfold Char.ofNat
  split
  · rfl
  · rename_i hv
    exact absurd (Or.inl h) hv

theorem nfkd_of_lt192 {c : Char} (h : c.toNat < 192) : nfkdChar c = [c] := by
  unfold nfkdChar
  rw [if_pos h]

theorem isCombining_false_of_lt768 {c : Char} (h : c.toNat < 768) :
    isCombining c = false := by
  unfold isCombining
  simp only [Bool.and_eq_false_iff, decide_eq_false_iff_not]
  omega

theorem pyLower_fix_of_not_upper {c : Char} (h : ¬(65 ≤ c.toNat ∧ c.toNat ≤ 90)) :
    pyLowerChar c = c := by
  unfold pyLowerChar
  rw [if_neg h]

theorem pyLower_toNat_of_upper {c : Char} (h : 65 ≤ c.toNat ∧ c.toNat ≤ 90) :
    (pyLowerChar c).toNat = c.toNat + 32 := by
  unfold pyLowerChar
  rw [if_pos h]
  exact char_toNat_ofNat (by omega)

/-- `pyLowerChar` of a character below the accent range is stable for
every stage of a second `normalize_str` pass. -/
theorem stable_lower_of_lt192 {c : Char} (h : c.toNat < 192) :
    nfkdChar (pyLowerChar c) = [pyLowerChar c] ∧
    isCombining (pyLowerChar c) = false ∧
    pyLowerChar (pyLowerChar c) = pyLowerChar c := by
  by_cases hu : 65 ≤ c.toNat ∧ c.toNat ≤ 90
  · have ht := pyLower_toNat_of_upper hu
    exact ⟨nfkd_of_lt192 (by omega), isCombining_false_of_lt768 (by omega),
      pyLower_fix_of_not_upper (by omega)⟩
  · rw [pyLower_fix_of_not_upper hu]
    exact ⟨nfkd_of_lt192 h, isCombining_false_of_lt768 (by omega),
      pyLower_fix_of_not_upper hu⟩

/-- Every accent-table combining mark really is combining, and every
lower-cased base letter is stable. -/
theorem accentTable_stable :
    accentTable.all (fun e => isCombining e.2.2 &&
      decide (nfkdChar (pyLowerChar e.2.1) = [pyLowerChar e.2.1]) &&
      !isCombining (pyLowerChar e.2.1) &&
      decide (pyLowerChar (pyLowerChar e.2.1) = pyLowerChar e.2.1)) = true := by
  decide

/-- Any non-combining character that `nfkdChar` emits, once lower-cased,
is fixed by all character-level stages of `normalize_str`. -/
theorem output_char_stable (c0 c : Char) (hc : c ∈ nfkdChar c0)
    (hnc : isCombining c = false) :
    nfkdChar (pyLowerChar c) = [pyLowerChar c] ∧
    isCombining (pyLowerChar c) = false ∧
    pyLowerChar (pyLowerChar c) = pyLowerChar c := by
  unfold nfkdChar at hc
  by_cases h0 : c0.toNat < 192
  · rw [if_pos h0] at hc
    simp only [List.mem_singleton] at hc
    subst hc
    exact stable_lower_of_lt192 h0
  · rw [if_neg h0] at hc
    rcases hf : accentTable.find? (fun e => e.1 = c0) with _ | e
    · rw [hf] at hc
      simp only [List.mem_singleton] at hc
      subst hc
      have hfix : pyLowerChar c = c := pyLower_fix_of_not_upper (by omega)
      refine ⟨?_, ?_, ?_⟩
      · rw [hfix]
        unfold nfkdChar
        rw [if_neg h0, hf]
      · rw [hfix]
        exact hnc
      · rw [hfix, hfix]
    · rw [hf] at hc
      have hmem := List.mem_of_find?_eq_some hf
      have hall := List.all_eq_true.mp accentTable_stable e hmem
      simp only [Bool.and_eq_true, Bool.not_eq_true', decide_eq_true_eq] at hall
      simp only [List.mem_cons, List.mem_singleton, List.not_mem_nil, or_false] at hc
      rcases hc with hc | hc
      · subst hc
        exact ⟨hall.1.1.2, hall.1.2, hall.2⟩
      · subst hc
        rw [hall.1.1.1] at hnc
        exact absurd hnc (by simp)

theorem flatten_nfkd_id {l : Str} (h : ∀ c ∈ l, nfkdChar c = [c]) :
    (l.map nfkdChar).flatten = l := by
  induction l with
  | nil => rfl
  | cons c t ih =>
    simp only [List.map_cons, List.flatten_cons, h c (List.mem_cons_self c t)]
    rw [ih (fun x hx => h x (List.mem_cons_of_mem c hx))]
    rfl

theorem map_id_of_fix {f : Char → Char} {l : Str} (h : ∀ c ∈ l, f c = c) :
    l.map f = l := by
  induction l with
  | nil => rfl
  | cons c t ih =>
    rw [List.map_cons, h c (List.mem_cons_self c t),
      ih (fun x hx => h x (List.mem_cons_of_mem c hx))]

theorem dropWhile_idem {p : Char → Bool} (l : Str) :
    List.dropWhile p (List.dropWhile p l) = List.dropWhile p l := by
  induction l with
  | nil => rfl
  | cons c t ih =>
    by_cases h : p c = true
    · rw [List.dropWhile_cons_of_pos h]
      exact ih
    · rw [List.dropWhile_cons_of_neg h, List.dropWhile_cons_of_neg h]

theorem dropWhile_append_self {p : Char → Bool} {u v : Str}
    (h : List.dropWhile p (u ++ v) = u ++ v) : List.dropWhile p u = u := by
  cases u with
  | nil => rfl
  | cons c t =>
    by_cases hp : p c = true
    · exfalso
      rw [List.cons_append, List.dropWhile_cons_of_pos hp] at h
      have hle := (List.dropWhile_sublist (l := t ++ v) p).length_le
      rw [h] at hle
      simp at hle
    · rw [List.dropWhile_cons_of_neg hp]

theorem pyStrip_mem {c : Char} {l : Str} (h : c ∈ pyStrip l) : c ∈ l := by
  unfold pyStrip at h
  rw [List.mem_reverse] at h
  have h2 := List.dropWhile_sublist (l := (List.dropWhile isPySpace l).reverse)
    (p := isPySpace)
  have h3 := h2.mem h
  rw [List.mem_reverse] at h3
  exact (List.dropWhile_sublist (l := l) (p := isPySpace)).mem h3

theorem pyStrip_idem (l : Str) : pyStrip (pyStrip l) = pyStrip l := by
  have hA : List.dropWhile isPySpace (List.dropWhile isPySpace l) =
      List.dropWhile isPySpace l := dropWhile_idem l
  have hBA : List.dropWhile isPySpace l =
      pyStrip l ++ (List.takeWhile isPySpace
        (List.dropWhile isPySpace l).reverse).reverse := by
    unfold pyStrip
    rw [← List.reverse_append, List.takeWhile_append_dropWhile,
      List.reverse_reverse]
  have hB : List.dropWhile isPySpace (pyStrip l) = pyStrip l := by
    rw [hBA] at hA
    exact dropWhile_append_self hA
  show (List.dropWhile isPySpace
      (List.dropWhile isPySpace (pyStrip l)).reverse).reverse = pyStrip l
  rw [hB]
  show (List.dropWhile isPySpace
      ((List.dropWhile isPySpace
        (List.dropWhile isPySpace l).reverse).reverse).reverse).reverse = pyStrip l
  rw [List.reverse_reverse, dropWhile_idem]
  rfl

/-- Every character of a `normalize_str` output is fixed by all
character-level stages of a second pass. -/
theorem normalize_output_stable (s : Str) :
    ∀ c ∈ normalize_str s, nfkdChar c = [c] ∧ isCombining c = false ∧
      pyLowerChar c = c ∧ c ≠ '_' := by
  intro c hc
  have hx := pyStrip_mem hc
  rw [List.mem_filter] at hx
  rcases hx with ⟨hmap, hne⟩
  rw [List.mem_map] at hmap
  rcases hmap with ⟨c1, hc1, hlow⟩
  rw [List.mem_filter] at hc1
  rcases hc1 with ⟨hflat, hcomb⟩
  rw [List.mem_flatten] at hflat
  rcases hflat with ⟨seg, hseg, hc1seg⟩
  rw [List.mem_map] at hseg
  rcases hseg with ⟨c0, _, hc0⟩
  subst hc0
  subst hlow
  have hst := output_char_stable c0 c1 hc1seg (by
    simpa using hcomb)
  exact ⟨hst.1, hst.2.1, hst.2.2, by simpa using hne⟩

/-- **C5.**  `normalize_str` is idempotent, and on the spec's examples it
is case- and accent-insensitive: `"Não" ↦ "nao"` and
`"NOME_CLASSE" ↦ "nomeclasse"`. -/
theorem normalize_str_idempotent :
    (∀ s : Str, normalize_str (normalize_str s) = normalize_str s) ∧
    normalize_str "Não".toList = "nao".toList ∧
    normalize_str "NOME_CLASSE".toList = "nomeclasse".toList := by
  refine ⟨fun s => ?_, by rfl, by rfl⟩
  have hst := normalize_output_stable s
  have h1 : (List.map nfkdChar (normalize_str s)).flatten = normalize_str s :=
    flatten_nfkd_id (fun c hc => (hst c hc).1)
  have h2 : List.filter (fun c => !isCombining c) (normalize_str s) =
      normalize_str s :=
    List.filter_eq_self.mpr (fun c hc => by
      rw [(hst c hc).2.1]
      rfl)
  have h3 : List.map pyLowerChar (normalize_str s) = normalize_str s :=
    map_id_of_fix (fun c hc => (hst c hc).2.2.1)
  have h4 : List.filter (fun c => decide (c ≠ '_')) (normalize_str s) =
      normalize_str s :=
    List.filter_eq_self.mpr (fun c hc => by
      simp [(hst c hc).2.2.2])
  conv_lhs => rw [normalize_str, h1, h2, h3, h4]
  show pyStrip (normalize_str s) = normalize_str s
  conv_lhs => rw [normalize_str]
  rw [pyStrip_idem]
  rfl

/-! ### Dictionary lemmas -/

theorem dictGet_dictSet_self {α β : Type} [DecidableEq α]
    (d : List (α × β)) (k : α) (v : β) : dictGet (dictSet d k v) k = some v := by
  induction d with
  | nil => simp [dictSet, dictGet]
  | cons e t ih =>
    by_cases h : e.1 = k
    · simp [dictSet, h, dictGet]
    · simp only [dictSet]
      rw [if_neg (by exact h)]
      simp only [dictGet]
      rw [if_neg (by exact h)]
      exact ih

theorem dictGet_dictSet_ne {α β : Type} [DecidableEq α]
    (d : List (α × β)) {k a : α} (v : β) (h : k ≠ a) :
    dictGet (dictSet d k v) a = dictGet d a := by
  induction d with
  | nil => simp [dictSet, dictGet, h]
  | cons e t ih =>
    by_cases he : e.1 = k
    · simp only [dictSet]
      rw [if_pos (by exact he)]
      simp only [dictGet]
      rw [if_neg h, if_neg (he ▸ h)]
    · simp only [dictSet]
      rw [if_neg (by exact he)]
      simp only [dictGet]
      by_cases ha : e.1 = a
      · rw [if_pos (by exact ha), if_pos (by exact ha)]
      · rw [if_neg (by exact ha), if_neg (by exact ha)]
        exact ih

theorem mem_dictSet {α β : Type} [DecidableEq α]
    {d : List (α × β)} {k a : α} {v w : β}
    (h : (a, w) ∈ dictSet d k v) : (a, w) = (k, v) ∨ (a, w) ∈ d := by
  induction d with
  | nil => simpa [dictSet] using h
  | cons e t ih =>
    by_cases he : e.1 = k
    · simp only [dictSet] at h
      rw [if_pos (by exact he)] at h
      rcases List.mem_cons.mp h with h | h
      · exact Or.inl h
      · exact Or.inr (List.mem_cons_of_mem e h)
    · simp only [dictSet] at h
      rw [if_neg (by exact he)] at h
      rcases List.mem_cons.mp h with h | h
      · exact Or.inr (h ▸ List.mem_cons_self e t)
      · rcases ih h with h | h
        · exact Or.inl h
        · exact Or.inr (List.mem_cons_of_mem e h)

theorem keys_dictSet {α β : Type} [DecidableEq α]
    (d : List (α × β)) (k a : α) (v : β) :
    a ∈ (dictSet d k v).map Prod.fst ↔ a = k ∨ a ∈ d.map Prod.fst := by
  induction d with
  | nil => simp [dictSet]
  | cons e t ih =>
    by_cases he : e.1 = k
    · simp only [dictSet]
      rw [if_pos (by exact he)]
      simp only [List.map_cons, List.mem_cons]
      rw [he]
      tauto
    · simp only [dictSet]
      rw [if_neg (by exact he)]
      simp only [List.map_cons, List.mem_cons]
      rw [ih]
      tauto

theorem dictGet_mem {α β : Type} [DecidableEq α]
    {d : List (α × β)} {a : α} {v : β} (h : dictGet d a = some v) : (a, v) ∈ d := by
  induction d with
  | nil => simp [dictGet] at h
  | cons e t ih =>
    simp only [dictGet] at h
    by_cases he : e.1 = a
    · rw [if_pos (by exact he)] at h
      injection h with h
      have hev : e = (a, v) := by
        rw [← he, ← h]
      rw [← hev]
      exact List.mem_cons_self e t
    · rw [if_neg (by exact he)] at h
      exact List.mem_cons_of_mem e (ih h)

theorem dictGet_none_iff {α β : Type} [DecidableEq α]
    {d : List (α × β)} {a : α} : dictGet d a = none ↔ a ∉ d.map Prod.fst := by
  induction d with
  | nil => simp [dictGet]
  | cons e t ih =>
    simp only [dictGet, List.map_cons, List.mem_cons]
    by_cases he : e.1 = a
    · rw [if_pos (by exact he)]
      simp [he]
    · rw [if_neg (by exact he)]
      rw [ih]
      constructor
      · intro h hc
        rcases hc with hc | hc
        · exact he hc.symm
        · exact h hc
      · intro h hc
        exact h (Or.inr hc)

theorem nodup_keys_dictSet {α β : Type} [DecidableEq α]
    {d : List (α × β)} (k : α) (v : β) (h : (d.map Prod.fst).Nodup) :
    ((dictSet d k v).map Prod.fst).Nodup := by
  induction d with
  | nil => simp [dictSet]
  | cons e t ih =>
    simp only [List.map_cons, List.nodup_cons] at h
    by_cases he : e.1 = k
    · simp only [dictSet]
      rw [if_pos (by exact he)]
      simp only [List.map_cons, List.nodup_cons]
      exact ⟨he ▸ h.1, h.2⟩
    · simp only [dictSet]
      rw [if_neg (by exact he)]
      simp only [List.map_cons, List.nodup_cons]
      refine ⟨fun hc => ?_, ih h.2⟩
      rcases (keys_dictSet t k e.1 v).mp hc with hc | hc
      · exact he hc
      · exact h.1 hc

theorem dictSet_of_get_none {α β : Type} [DecidableEq α]
    {d : List (α × β)} {k : α} (v : β) (h : dictGet d k = none) :
    dictSet d k v = d ++ [(k, v)] := by
  induction d with
  | nil => rfl
  | cons e t ih =>
    simp only [dictGet] at h
    by_cases he : e.1 = k
    · rw [if_pos (by exact he)] at h
      exact absurd h (by simp)
    · rw [if_neg (by exact he)] at h
      simp only [dictSet]
      rw [if_neg (by exact he), ih h]
      rfl

theorem dictGet_some_decomp {α β : Type} [DecidableEq α]
    {d : List (α × β)} {k : α} {v : β} (h : dictGet d k = some v) :
    ∃ c1 c2, d = c1 ++ (k, v) :: c2 ∧ ∀ e ∈ c1, e.1 ≠ k := by
  induction d with
  | nil => simp [dictGet] at h
  | cons e t ih =>
    simp only [dictGet] at h
    by_cases he : e.1 = k
    · rw [if_pos (by exact he)] at h
      injection h with h
      refine ⟨[], t, ?_, by simp⟩
      simp [← he, ← h]
    · rw [if_neg (by exact he)] at h
      rcases ih h with ⟨c1, c2, hd, hc1⟩
      refine ⟨e :: c1, c2, by rw [hd]; rfl, ?_⟩
      intro x hx
      rcases List.mem_cons.mp hx with hx | hx
      · rw [hx]
        exact he
      · exact hc1 x hx

theorem dictSet_append_left {α β : Type} [DecidableEq α]
    {c1 : List (α × β)} (r : List (α × β)) {k : α} (v : β)
    (h : k ∈ c1.map Prod.fst) :
    dictSet (c1 ++ r) k v = dictSet c1 k v ++ r := by
  induction c1 with
  | nil => simp at h
  | cons e t ih =>
    by_cases he : e.1 = k
    · simp only [List.cons_append, dictSet]
      rw [if_pos (by exact he), if_pos (by exact he)]
      rfl
    · simp only [List.map_cons, List.mem_cons] at h
      rcases h with h | h
      · exact absurd h.symm he
      · simp only [List.cons_append, dictSet]
        rw [if_neg (by exact he), if_neg (by exact he)]
        exact congrArg (List.cons (e.1, e.2)) (ih h)

theorem dictSet_append_right {α β : Type} [DecidableEq α]
    {c1 : List (α × β)} (r : List (α × β)) {k : α} (v : β)
    (h : k ∉ c1.map Prod.fst) :
    dictSet (c1 ++ r) k v = c1 ++ dictSet r k v := by
  induction c1 with
  | nil => rfl
  | cons e t ih =>
    simp only [List.map_cons, List.mem_cons] at h
    push_neg at h
    simp only [List.cons_append, dictSet]
    rw [if_neg (fun hc => h.1 hc.symm)]
    exact congrArg (List.cons (e.1, e.2)) (ih h.2)

/-! ### Sorting and selection lemmas -/

theorem insertDesc_decomp (x : Str × Nat) (l : List (Str × Nat)) :
    ∃ P Q, insertDesc x l = P ++ x :: Q ∧ l = P ++ Q ∧ ∀ e ∈ P, x.2 < e.2 := by
  induction l with
  | nil => exact ⟨[], [], rfl, rfl, by simp⟩
  | cons y ys ih =>
    by_cases h : x.2 < y.2
    · rcases ih with ⟨P, Q, h1, h2, h3⟩
      refine ⟨y :: P, Q, ?_, by rw [h2]; rfl, ?_⟩
      · simp only [insertDesc]
        rw [if_pos h, h1]
        rfl
      · intro e he
        rcases List.mem_cons.mp he with he | he
        · rw [he]
          exact h
        · exact h3 e he
    · refine ⟨[], y :: ys, ?_, rfl, by simp⟩
      simp only [insertDesc]
      rw [if_neg h]
      rfl

theorem mem_insertDesc {y x : Str × Nat} {l : List (Str × Nat)} :
    y ∈ insertDesc x l ↔ y = x ∨ y ∈ l := by
  rcases insertDesc_decomp x l with ⟨P, Q, h1, h2, _⟩
  rw [h1, h2]
  simp only [List.mem_append, List.mem_cons]
  tauto

theorem mem_sortDesc {y : Str × Nat} {l : List (Str × Nat)} :
    y ∈ sortDescByScore l ↔ y ∈ l := by
  induction l with
  | nil => simp [sortDescByScore]
  | cons x xs ih =>
    simp only [sortDescByScore, mem_insertDesc, List.mem_cons, ih]

theorem pickBest_not_used {l : List (Str × Nat)} {used : List Str} {m : Str}
    (h : pickBest l used = some m) : m ∉ used := by
  induction l with
  | nil => simp [pickBest] at h
  | cons e t ih =>
    simp only [pickBest] at h
    by_cases he : e.1 ∈ used
    · rw [if_pos he] at h
      exact ih h
    · rw [if_neg he] at h
      injection h with h
      exact h ▸ he

theorem pickBest_none_of_all_used {l : List (Str × Nat)} {used : List Str}
    (h : ∀ e ∈ l, e.1 ∈ used) : pickBest l used = none := by
  induction l with
  | nil => rfl
  | cons e t ih =>
    simp only [pickBest]
    rw [if_pos (h e (List.mem_cons_self e t))]
    exact ih (fun x hx => h x (List.mem_cons_of_mem e hx))

theorem pickBest_isSome {l : List (Str × Nat)} {used : List Str} {e : Str × Nat}
    (he : e ∈ l) (hu : e.1 ∉ used) : pickBest l used ≠ none := by
  induction l with
  | nil => simp at he
  | cons f t ih =>
    simp only [pickBest]
    rcases List.mem_cons.mp he with hef | hef
    · rw [← hef, if_neg hu]
      simp
    · by_cases hf : f.1 ∈ used
      · rw [if_pos hf]
        exact ih hef
      · rw [if_neg hf]
        simp

/-- Stability of the selection: when a qualifying entry for `n1` stands
before every entry of `n2` in the ranked list and `n1` is unused, the walk
cannot pick `n2`. -/
theorem pickBest_prefers_earlier {l1 l2 : List (Str × Nat)} {used : List Str}
    {n1 n2 : Str} {s : Nat} (hne : n1 ≠ n2) (hn1 : n1 ∉ used)
    (hfree : ∀ e ∈ l1, e.1 ≠ n2) :
    pickBest (l1 ++ (n1, s) :: l2) used ≠ some n2 := by
  induction l1 with
  | nil =>
    simp only [List.nil_append, pickBest]
    by_cases h : n1 ∈ used
    · exact absurd h hn1
    · rw [if_neg h]
      intro hc
      injection hc with hc
      exact hne hc
  | cons e t ih =>
    simp only [List.cons_append, pickBest]
    by_cases h : e.1 ∈ used
    · rw [if_pos h]
      exact ih (fun x hx => hfree x (List.mem_cons_of_mem e hx))
    · rw [if_neg h]
      intro hc
      injection hc with hc
      exact hfree e (List.mem_cons_self e t) hc

theorem firstWithNorm_some {nlf : List (Str × Str)} {bm orig : Str}
    (h : firstWithNorm nlf bm = some orig) : (orig, bm) ∈ nlf := by
  induction nlf with
  | nil => simp [firstWithNorm] at h
  | cons p t ih =>
    simp only [firstWithNorm] at h
    by_cases hp : p.2 = bm
    · rw [if_pos hp] at h
      injection h with h
      have : p = (orig, bm) := by
        rw [← hp, ← h]
      rw [← this]
      exact List.mem_cons_self p t
    · rw [if_neg hp] at h
      exact List.mem_cons_of_mem p (ih h)

/-! ### The at-most-once invariant of the mapping loop (C1) -/

theorem autoMapStep_inv (nlf : List (Str × Str)) (nf : List Str)
    (syns : List (Str × List Str)) (thr : Nat)
    (st : List (Str × Option Str) × List Str) (attr : Str)
    (hnlf : ∀ p ∈ nlf, p.2 = normalize_str p.1)
    (h1 : ∀ a1 a2 f1 f2, a1 ≠ a2 → dictGet st.1 a1 = some (some f1) →
      dictGet st.1 a2 = some (some f2) → f1 ≠ f2)
    (h2 : ∀ a f, dictGet st.1 a = some (some f) → normalize_str f ∈ st.2) :
    (∀ a1 a2 f1 f2, a1 ≠ a2 →
      dictGet (autoMapStep nlf nf syns thr st attr).1 a1 = some (some f1) →
      dictGet (autoMapStep nlf nf syns thr st attr).1 a2 = some (some f2) →
      f1 ≠ f2) ∧
    (∀ a f, dictGet (autoMapStep nlf nf syns thr st attr).1 a = some (some f) →
      normalize_str f ∈ (autoMapStep nlf nf syns thr st attr).2) := by
  simp only [autoMapStep]
  rcases hpb : pickBest (sortDescByScore
      (buildCandidateMatches (candidatesOf syns attr) nf thr)) st.2 with _ | bm
  · dsimp only
    constructor
    · intro a1 a2 f1 f2 hne ha1 ha2
      by_cases e1 : attr = a1
      · rw [← e1, dictGet_dictSet_self] at ha1
        exact absurd (Option.some.inj ha1) (by simp)
      · by_cases e2 : attr = a2
        · rw [← e2, dictGet_dictSet_self] at ha2
          exact absurd (Option.some.inj ha2) (by simp)
        · rw [dictGet_dictSet_ne _ _ e1] at ha1
          rw [dictGet_dictSet_ne _ _ e2] at ha2
          exact h1 a1 a2 f1 f2 hne ha1 ha2
    · intro a f ha
      by_cases e : attr = a
      · rw [← e, dictGet_dictSet_self] at ha
        exact absurd (Option.some.inj ha) (by simp)
      · rw [dictGet_dictSet_ne _ _ e] at ha
        exact h2 a f ha
  · have hno : bm ∉ st.2 := pickBest_not_used hpb
    dsimp only
    rcases hfw : firstWithNorm nlf bm with _ | orig
    · exact ⟨h1, h2⟩
    · have hbm : normalize_str orig = bm := by
        have := hnlf (orig, bm) (firstWithNorm_some hfw)
        exact this.symm
      dsimp only
      constructor
      · intro a1 a2 f1 f2 hne ha1 ha2 hff
        by_cases e1 : attr = a1
        · rw [← e1, dictGet_dictSet_self] at ha1
          have hf1 : f1 = orig := (Option.some.inj (Option.some.inj ha1)).symm
          rw [← e1] at hne
          rw [dictGet_dictSet_ne _ _ hne] at ha2
          have := h2 a2 f2 ha2
          rw [← hff, hf1, hbm] at this
          exact hno this
        · by_cases e2 : attr = a2
          · rw [← e2, dictGet_dictSet_self] at ha2
            have hf2 : f2 = orig := (Option.some.inj (Option.some.inj ha2)).symm
            rw [← e2] at hne
            rw [dictGet_dictSet_ne _ _ (fun hc => hne hc.symm)] at ha1
            have := h2 a1 f1 ha1
            rw [hff, hf2, hbm] at this
            exact hno this
          · rw [dictGet_dictSet_ne _ _ e1] at ha1
            rw [dictGet_dictSet_ne _ _ e2] at ha2
            exact h1 a1 a2 f1 f2 hne ha1 ha2 hff
      · intro a f ha
        by_cases e : attr = a
        · rw [← e, dictGet_dictSet_self] at ha
          have : f = orig := (Option.some.inj (Option.some.inj ha)).symm
          rw [this, hbm]
          exact List.mem_cons_self bm st.2
        · rw [dictGet_dictSet_ne _ _ e] at ha
          exact List.mem_cons_of_mem bm (h2 a f ha)

theorem autoMapFold_inv (nlf : List (Str × Str)) (nf : List Str)
    (syns : List (Str × List Str)) (thr : Nat) (attrs : List Str)
    (st : List (Str × Option Str) × List Str)
    (hnlf : ∀ p ∈ nlf, p.2 = normalize_str p.1)
    (h1 : ∀ a1 a2 f1 f2, a1 ≠ a2 → dictGet st.1 a1 = some (some f1) →
      dictGet st.1 a2 = some (some f2) → f1 ≠ f2)
    (h2 : ∀ a f, dictGet st.1 a = some (some f) → normalize_str f ∈ st.2) :
    ∀ a1 a2 f1 f2, a1 ≠ a2 →
      dictGet (attrs.foldl (autoMapStep nlf nf syns thr) st).1 a1 = some (some f1) →
      dictGet (attrs.foldl (autoMapStep nlf nf syns thr) st).1 a2 = some (some f2) →
      f1 ≠ f2 := by
  induction attrs generalizing st with
  | nil => exact h1
  | cons attr t ih =>
    have hstep := autoMapStep_inv nlf nf syns thr st attr hnlf h1 h2
    exact ih (autoMapStep nlf nf syns thr st attr) hstep.1 hstep.2

/-- **C1.**  No two distinct model attributes are mapped to the same
non-null layer field: whenever the auto-mapper returns a mapping in which
distinct attributes `a1` and `a2` carry non-null fields, those fields
differ. -/
theorem auto_map_at_most_once (fa : Bool) (attrs fields : List Str)
    (syns : List (Str × List Str)) (thr : Nat)
    (m : List (Str × Option Str)) (a1 a2 f1 f2 : Str)
    (hok : auto_map_attributes_with_synonyms fa attrs fields syns thr = Except.ok m)
    (hne : a1 ≠ a2) (h1 : dictGet m a1 = some (some f1))
    (h2 : dictGet m a2 = some (some f2)) : f1 ≠ f2 := by
  unfold auto_map_attributes_with_synonyms at hok
  rcases fa with _ | _
  · simp at hok
  · rw [if_pos rfl] at hok
    injection hok with hok
    subst hok
    unfold auto_map_core at h1 h2
    exact autoMapFold_inv _ _ syns thr attrs ([], [])
      (by
        intro p hp
        rw [List.mem_map] at hp
        rcases hp with ⟨f, _, hpf⟩
        rw [← hpf])
      (by intro a1 a2 f1 f2 _ hg _; simp [dictGet] at hg)
      (by intro a f hg; simp [dictGet] at hg)
      a1 a2 f1 f2 hne h1 h2

/-- **C1, witness.**  A concrete run mapping `id` and `nome` to the two
distinct fields `ID` and `Nome`. -/
theorem auto_map_at_most_once_witness : "ID".toList ≠ "Nome".toList :=
  auto_map_at_most_once true ["id".toList, "nome".toList]
    ["ID".toList, "Nome".toList] [] 80
    [("id".toList, some "ID".toList), ("nome".toList, some "Nome".toList)]
    "id".toList "nome".toList "ID".toList "Nome".toList
    (by rfl) (by decide) (by rfl) (by rfl)

/-! ### Unmapped attributes get the `None` marker (C9) -/

theorem autoMapStep_sets_none (nlf : List (Str × Str)) (nf : List Str)
    (syns : List (Str × List Str)) (thr : Nat)
    (st : List (Str × Option Str) × List Str) (attr : Str)
    (hcm : buildCandidateMatches (candidatesOf syns attr) nf thr = []) :
    dictGet (autoMapStep nlf nf syns thr st attr).1 attr = some none := by
  have hstep : autoMapStep nlf nf syns thr st attr = (dictSet st.1 attr none, st.2) := by
    unfold autoMapStep
    rw [hcm]
    rfl
  rw [hstep]
  exact dictGet_dictSet_self _ _ _

theorem autoMapStep_none_eq (nlf : List (Str × Str)) (nf : List Str)
    (syns : List (Str × List Str)) (thr : Nat)
    (st : List (Str × Option Str) × List Str) (attr : Str)
    (hpb : pickBest (sortDescByScore (buildCandidateMatches
      (candidatesOf syns attr) nf thr)) st.2 = none) :
    autoMapStep nlf nf syns thr st attr = (dictSet st.1 attr none, st.2) := by
  simp only [autoMapStep]
  rw [hpb]

theorem autoMapStep_keeps_none (nlf : List (Str × Str)) (nf : List Str)
    (syns : List (Str × List Str)) (thr : Nat)
    (st : List (Str × Option Str) × List Str) (a attr : Str)
    (hprev : dictGet st.1 attr = some none)
    (hcm : buildCandidateMatches (candidatesOf syns attr) nf thr = []) :
    dictGet (autoMapStep nlf nf syns thr st a).1 attr = some none := by
  by_cases ha : a = attr
  · subst ha
    exact autoMapStep_sets_none nlf nf syns thr st a hcm
  · simp only [autoMapStep]
    rcases hpb : pickBest (sortDescByScore
        (buildCandidateMatches (candidatesOf syns a) nf thr)) st.2 with _ | bm
    · dsimp only
      rw [dictGet_dictSet_ne _ _ ha]
      exact hprev
    · dsimp only
      rcases hfw : firstWithNorm nlf bm with _ | orig
      · exact hprev
      · dsimp only
        rw [dictGet_dictSet_ne _ _ ha]
        exact hprev

theorem autoMapFold_none (nlf : List (Str × Str)) (nf : List Str)
    (syns : List (Str × List Str)) (thr : Nat) (attrs : List Str)
    (st : List (Str × Option Str) × List Str) (attr : Str)
    (hcm : buildCandidateMatches (candidatesOf syns attr) nf thr = []) :
    (dictGet st.1 attr = some none ∨ attr ∈ attrs) →
    dictGet ((attrs.foldl (autoMapStep nlf nf syns thr) st)).1 attr = some none := by
  induction attrs generalizing st with
  | nil =>
    intro h
    rcases h with h | h
    · exact h
    · simp at h
  | cons a t ih =>
    intro h
    apply ih (autoMapStep nlf nf syns thr st a)
    rcases h with h | h
    · exact Or.inl (autoMapStep_keeps_none nlf nf syns thr st a attr h hcm)
    · rcases List.mem_cons.mp h with h | h
      · subst h
        exact Or.inl (autoMapStep_sets_none nlf nf syns thr st attr hcm)
      · exact Or.inr h

/-- **C9.**  The auto-mapper raises the `ImportError` (DependencyMissing)
when the fuzzy primitive is unavailable, uniformly in its other arguments —
before any matching work; when it is available the call always returns a
mapping, and an attribute whose candidate-match table comes out empty (no
field reaches the threshold) is mapped to the `None` marker, not an
error. -/
theorem auto_map_dependency_missing_and_no_match (attrs fields : List Str)
    (syns : List (Str × List Str)) (thr : Nat) :
    (auto_map_attributes_with_synonyms false attrs fields syns thr =
      Except.error "fuzzywuzzy não está disponível para mapeamento automático".toList) ∧
    (∃ m, auto_map_attributes_with_synonyms true attrs fields syns thr =
      Except.ok m) ∧
    (∀ attr, attr ∈ attrs →
      buildCandidateMatches (candidatesOf syns attr) (fields.map normalize_str) thr = [] →
      dictGet (auto_map_core attrs fields syns thr) attr = some none) := by
  refine ⟨rfl, ⟨_, rfl⟩, ?_⟩
  intro attr hmem hcm
  unfold auto_map_core
  have hnf : (fields.map (fun f => (f, normalize_str f))).map (fun p => p.2) =
      fields.map normalize_str := by
    rw [List.map_map]
    rfl
  exact autoMapFold_none _ _ syns thr attrs ([], []) attr
    (by rw [hnf]; exact hcm) (Or.inr hmem)

/-- **C9, witness.**  `"zzz"` finds no qualifying field among `["abc"]`
at threshold 80 and is mapped to the `None` marker; with the primitive
unavailable the same call raises. -/
theorem auto_map_dependency_missing_and_no_match_witness :
    dictGet (auto_map_core ["zzz".toList] ["abc".toList] [] 80) "zzz".toList =
      some none :=
  (auto_map_dependency_missing_and_no_match ["zzz".toList] ["abc".toList] [] 80).2.2
    "zzz".toList (by decide) (by rfl)

/-! ### Threshold filtering (C8) -/

theorem cmStep_keys (thr : Nat) (cm : List (Str × Nat)) (e : Str × Nat) (m : Str) :
    m ∈ (cmStep thr cm e).map Prod.fst ↔
      (thr ≤ e.2 ∧ m = e.1) ∨ m ∈ cm.map Prod.fst := by
  unfold cmStep
  by_cases ht : thr ≤ e.2
  · rw [if_pos ht]
    rcases hg : dictGet cm e.1 with _ | s0
    · dsimp only
      rw [keys_dictSet]
      tauto
    · dsimp only
      have hkey : e.1 ∈ cm.map Prod.fst := by
        rw [List.mem_map]
        exact ⟨(e.1, s0), dictGet_mem hg, rfl⟩
      by_cases hgt : s0 < e.2
      · rw [if_pos hgt, keys_dictSet]
        constructor
        · intro h
          rcases h with h | h
          · exact Or.inr (h ▸ hkey)
          · exact Or.inr h
        · intro h
          rcases h with h | h
          · exact Or.inl h.2
          · exact Or.inr h
      · rw [if_neg hgt]
        constructor
        · exact Or.inr
        · intro h
          rcases h with h | h
          · exact h.2 ▸ hkey
          · exact h
  · rw [if_neg ht]
    tauto

theorem cmFold_keys (thr : Nat) (es : List (Str × Nat)) (cm0 : List (Str × Nat))
    (m : Str) :
    m ∈ (es.foldl (cmStep thr) cm0).map Prod.fst ↔
      m ∈ cm0.map Prod.fst ∨ ∃ s, (m, s) ∈ es ∧ thr ≤ s := by
  induction es generalizing cm0 with
  | nil => simp
  | cons e t ih =>
    rw [List.foldl_cons, ih, cmStep_keys]
    constructor
    · intro h
      rcases h with (⟨hs, hm⟩ | h) | ⟨s, hmem, hs⟩
      · exact Or.inr ⟨e.2, by rw [hm]; exact List.mem_cons_self e t, hs⟩
      · exact Or.inl h
      · exact Or.inr ⟨s, List.mem_cons_of_mem e hmem, hs⟩
    · intro h
      rcases h with h | ⟨s, hmem, hs⟩
      · exact Or.inl (Or.inr h)
      · rcases List.mem_cons.mp hmem with hm | hm
        · refine Or.inl (Or.inl ⟨?_, ?_⟩)
          · have he2 : e.2 = s := by rw [← hm]
            rw [he2]
            exact hs
          · have he1 : e.1 = m := by rw [← hm]
            exact he1.symm
        · exact Or.inr ⟨s, hm, hs⟩

theorem mem_process_extract {query : Str} {choices : List Str} {m : Str} {s : Nat} :
    (m, s) ∈ process_extract query choices ↔
      m ∈ choices ∧ s = candidate_score query m := by
  unfold process_extract
  rw [mem_sortDesc, List.mem_map]
  constructor
  · intro ⟨c, hc, he⟩
    injection he with he1 he2
    subst he1
    exact ⟨hc, he2.symm⟩
  · intro ⟨hc, hs⟩
    exact ⟨m, hc, by rw [hs]; rfl⟩

theorem buildCM_keys (cands nf : List Str) (thr : Nat) (m : Str) :
    m ∈ (buildCandidateMatches cands nf thr).map Prod.fst ↔
      m ∈ nf ∧ ∃ c ∈ cands, thr ≤ candidate_score c m := by
  have hgen : ∀ (cs : List Str) (cm0 : List (Str × Nat)),
      m ∈ (cs.foldl (fun cm cand =>
        (process_extract cand nf).foldl (cmStep thr) cm) cm0).map Prod.fst ↔
      m ∈ cm0.map Prod.fst ∨ (m ∈ nf ∧ ∃ c ∈ cs, thr ≤ candidate_score c m) := by
    intro cs
    induction cs with
    | nil => simp
    | cons c t ih =>
      intro cm0
      rw [List.foldl_cons, ih, cmFold_keys]
      constructor
      · intro h
        rcases h with (h | ⟨s, hmem, hs⟩) | h
        · exact Or.inl h
        · rcases mem_process_extract.mp hmem with ⟨hm, hsc⟩
          exact Or.inr ⟨hm, c, List.mem_cons_self c t, hsc ▸ hs⟩
        · exact Or.inr ⟨h.1, h.2.choose, List.mem_cons_of_mem c h.2.choose_spec.1,
            h.2.choose_spec.2⟩
      · intro h
        rcases h with h | ⟨hm, c', hc', hs⟩
        · exact Or.inl (Or.inl h)
        · rcases List.mem_cons.mp hc' with he | he
          · subst he
            exact Or.inl (Or.inr ⟨candidate_score c' m,
              mem_process_extract.mpr ⟨hm, rfl⟩, hs⟩)
          · exact Or.inr ⟨hm, c', he, hs⟩
  unfold buildCandidateMatches
  rw [hgen cands []]
  simp

/-- **C8.**  The threshold test is inclusive: within any call of the
auto-mapper, a normalized field appears among the ranked candidate matches
of an attribute exactly when some candidate scores **at least** the
threshold against it — so a pair scoring exactly `threshold` is eligible,
and a field all of whose candidate scores are below `threshold` (at most
`threshold - 1`) is excluded. -/
theorem auto_map_threshold_inclusive (syns : List (Str × List Str)) (attr : Str)
    (fields : List Str) (thr : Nat) (m : Str) :
    m ∈ (sortDescByScore (buildCandidateMatches (candidatesOf syns attr)
        (fields.map normalize_str) thr)).map Prod.fst ↔
      m ∈ fields.map normalize_str ∧
        ∃ c ∈ candidatesOf syns attr, thr ≤ candidate_score c m := by
  rw [← buildCM_keys]
  constructor
  · intro h
    rcases List.mem_map.mp h with ⟨e, he, hm⟩
    exact List.mem_map.mpr ⟨e, mem_sortDesc.mp he, hm⟩
  · intro h
    rcases List.mem_map.mp h with ⟨e, he, hm⟩
    exact List.mem_map.mpr ⟨e, mem_sortDesc.mpr he, hm⟩

/-! ### Greedy order on a contested field (C4) -/

theorem cmStep_nodup (thr : Nat) {cm : List (Str × Nat)} (e : Str × Nat)
    (h : (cm.map Prod.fst).Nodup) : ((cmStep thr cm e).map Prod.fst).Nodup := by
  unfold cmStep
  by_cases ht : thr ≤ e.2
  · rw [if_pos ht]
    rcases dictGet cm e.1 with _ | s0
    · exact nodup_keys_dictSet e.1 e.2 h
    · dsimp only
      by_cases hgt : s0 < e.2
      · rw [if_pos hgt]
        exact nodup_keys_dictSet e.1 e.2 h
      · rw [if_neg hgt]
        exact h
  · rw [if_neg ht]
    exact h

theorem cmFold_nodup (thr : Nat) (es : List (Str × Nat)) {cm0 : List (Str × Nat)}
    (h : (cm0.map Prod.fst).Nodup) :
    ((es.foldl (cmStep thr) cm0).map Prod.fst).Nodup := by
  induction es generalizing cm0 with
  | nil => exact h
  | cons e t ih => exact ih (cmStep_nodup thr e h)

theorem buildCM_nodup (cands nf : List Str) (thr : Nat) :
    ((buildCandidateMatches cands nf thr).map Prod.fst).Nodup := by
  have hgen : ∀ (cs : List Str) (cm0 : List (Str × Nat)),
      (cm0.map Prod.fst).Nodup →
      ((cs.foldl (fun cm cand =>
        (process_extract cand nf).foldl (cmStep thr) cm) cm0).map Prod.fst).Nodup := by
    intro cs
    induction cs with
    | nil => exact fun cm0 h => h
    | cons c t ih => exact fun cm0 h => ih _ (cmFold_nodup thr _ h)
  exact hgen cands [] (by simp)

theorem keys_singleton_cases {l : List (Str × Nat)} {k : Str}
    (hnodup : (l.map Prod.fst).Nodup) (hsub : ∀ e ∈ l, e.1 = k) (hne : l ≠ []) :
    ∃ v, l = [(k, v)] := by
  match l with
  | [] => exact absurd rfl hne
  | [e] =>
    refine ⟨e.2, ?_⟩
    have h1 : e.1 = k := hsub e (by simp)
    have : e = (k, e.2) := by
      rw [Prod.ext_iff]
      exact ⟨h1, rfl⟩
    rw [this]
  | e1 :: e2 :: t =>
    exfalso
    simp only [List.map_cons, List.nodup_cons] at hnodup
    apply hnodup.1
    rw [hsub e1 (by simp), ← hsub e2 (by simp)]
    exact List.mem_cons_self _ _

/-- **C4.**  Contested fields go to the earlier model attribute: with
attributes `["nome", "descricao"]` and the single field `"nome_completo"`,
whenever each of the two attributes has some candidate scoring at or above
the threshold against the field, `"nome"` claims `"nome_completo"` and
`"descricao"` is mapped to the unmapped marker. -/
theorem auto_map_greedy_order (syns : List (Str × List Str)) (thr : Nat)
    (h1 : ∃ c ∈ candidatesOf syns "nome".toList,
      thr ≤ candidate_score c "nomecompleto".toList)
    (_h2 : ∃ c ∈ candidatesOf syns "descricao".toList,
      thr ≤ candidate_score c "nomecompleto".toList) :
    auto_map_core ["nome".toList, "descricao".toList] ["nome_completo".toList]
        syns thr =
      [("nome".toList, some "nome_completo".toList), ("descricao".toList, none)] := by
  have hnormf : (["nome_completo".toList].map normalize_str) =
      ["nomecompleto".toList] := by rfl
  -- the candidate-match table of "nome" is a single entry for the field
  have hk1 : "nomecompleto".toList ∈ (buildCandidateMatches
      (candidatesOf syns "nome".toList) ["nomecompleto".toList] thr).map Prod.fst := by
    rw [show (["nomecompleto".toList] : List Str) =
      ["nome_completo".toList].map normalize_str from by decide, buildCM_keys]
    exact ⟨by decide, h1⟩
  have hsub1 : ∀ e ∈ buildCandidateMatches (candidatesOf syns "nome".toList)
      ["nomecompleto".toList] thr, e.1 = "nomecompleto".toList := by
    intro e he
    have := (buildCM_keys (candidatesOf syns "nome".toList)
      ["nomecompleto".toList] thr e.1).mp (List.mem_map.mpr ⟨e, he, rfl⟩)
    simpa using this.1
  have hne1 : buildCandidateMatches (candidatesOf syns "nome".toList)
      ["nomecompleto".toList] thr ≠ [] := by
    intro hc
    rw [hc] at hk1
    simp at hk1
  rcases keys_singleton_cases (buildCM_nodup _ _ _) hsub1 hne1 with ⟨v, hcm1⟩
  -- every entry of the table of "descricao" also carries the single field
  have hsub2 : ∀ e ∈ sortDescByScore (buildCandidateMatches
      (candidatesOf syns "descricao".toList) ["nomecompleto".toList] thr),
      e.1 ∈ ["nomecompleto".toList] := by
    intro e he
    have := (buildCM_keys (candidatesOf syns "descricao".toList)
      ["nomecompleto".toList] thr e.1).mp
      (List.mem_map.mpr ⟨e, mem_sortDesc.mp he, rfl⟩)
    exact this.1
  -- run the two steps
  show (autoMapStep [("nome_completo".toList, "nomecompleto".toList)]
      ["nomecompleto".toList] syns thr
      (autoMapStep [("nome_completo".toList, "nomecompleto".toList)]
        ["nomecompleto".toList] syns thr ([], []) "nome".toList)
      "descricao".toList).1 = _
  have hstep1 : autoMapStep [("nome_completo".toList, "nomecompleto".toList)]
      ["nomecompleto".toList] syns thr ([], []) "nome".toList =
      ([("nome".toList, some "nome_completo".toList)], ["nomecompleto".toList]) := by
    unfold autoMapStep
    rw [hcm1]
    rfl
  rw [hstep1]
  rw [autoMapStep_none_eq _ _ syns thr _ _
    (pickBest_none_of_all_used (fun e he => hsub2 e he))]
  rfl

/-- **C4, witness.**  With the synonym `descricao ↦ nome` and threshold 80
both attributes qualify against `nome_completo` (score 100 each); the
earlier attribute wins. -/
theorem auto_map_greedy_order_witness :
    auto_map_core ["nome".toList, "descricao".toList] ["nome_completo".toList]
        [("descricao".toList, ["nome".toList])] 80 =
      [("nome".toList, some "nome_completo".toList),
       ("descricao".toList, none)] :=
  auto_map_greedy_order [("descricao".toList, ["nome".toList])] 80
    ⟨"nome".toList, by decide, by decide⟩
    ⟨"nome".toList, by decide, by decide⟩

/-! ### Tie-breaking stability (C3) -/

/-- Stability of the descending sort around a pivot entry: when `(n1, s)`
stands before every entry keyed `n2` (all of which carry the same score
`s`), it still does after sorting. -/
theorem sortDesc_pivot (n1 n2 : Str) (s : Nat) :
    ∀ (l1 l2 : List (Str × Nat)),
    (∀ e ∈ l1, e.1 ≠ n2) →
    (∀ e ∈ l1 ++ (n1, s) :: l2, e.1 = n2 → e.2 = s) →
    ∃ m1 m2, sortDescByScore (l1 ++ (n1, s) :: l2) = m1 ++ (n1, s) :: m2 ∧
      ∀ e ∈ m1, e.1 ≠ n2 := by
  intro l1
  induction l1 with
  | nil =>
    intro l2 _ hval
    rcases insertDesc_decomp (n1, s) (sortDescByScore l2) with ⟨P, Q, h1, h2, h3⟩
    refine ⟨P, Q, h1, ?_⟩
    intro e heP hen2
    have hel : e ∈ sortDescByScore l2 := by
      rw [h2]
      exact List.mem_append_left Q heP
    have he2 : e ∈ l2 := mem_sortDesc.mp hel
    have hv := hval e (List.mem_append_right _ (List.mem_cons_of_mem _ he2)) hen2
    have hlt := h3 e heP
    omega
  | cons a t ih =>
    intro l2 hfree hval
    have hfa : a.1 ≠ n2 := hfree a (List.mem_cons_self a t)
    rcases ih l2 (fun e he => hfree e (List.mem_cons_of_mem a he))
      (fun e he hk => hval e (List.mem_cons_of_mem a he) hk) with ⟨m1, m2, hm, hfree1⟩
    rcases insertDesc_decomp a (sortDescByScore (t ++ (n1, s) :: l2)) with
      ⟨P, Q, h1, h2, _⟩
    have hsort : sortDescByScore ((a :: t) ++ (n1, s) :: l2) =
        insertDesc a (sortDescByScore (t ++ (n1, s) :: l2)) := rfl
    have heq : P ++ Q = m1 ++ (n1, s) :: m2 := by
      rw [← h2, hm]
    rcases List.append_eq_append_iff.mp heq with ⟨w, hw1, hw2⟩ | ⟨w, hw1, hw2⟩
    · -- m1 = P ++ w, Q = w ++ (n1, s) :: m2
      refine ⟨P ++ a :: w, m2, ?_, ?_⟩
      · rw [hsort, h1, hw2]
        simp
      · intro e he
        rcases List.mem_append.mp he with he | he
        · exact hfree1 e (by rw [hw1]; exact List.mem_append_left w he)
        · rcases List.mem_cons.mp he with he | he
          · rw [he]
            exact hfa
          · exact hfree1 e (by rw [hw1]; exact List.mem_append_right P he)
    · -- P = m1 ++ w, (n1, s) :: m2 = w ++ Q
      match w, hw2 with
      | [], hw2 =>
        have hq : Q = (n1, s) :: m2 := by
          simpa using hw2.symm
        refine ⟨m1 ++ [a], m2, ?_, ?_⟩
        · rw [hsort, h1, hw1, hq]
          simp
        · intro e he
          rcases List.mem_append.mp he with he | he
          · exact hfree1 e he
          · rcases List.mem_cons.mp he with he | he
            · rw [he]
              exact hfa
            · simp at he
      | (x :: w'), hw2 =>
        have hx : x = (n1, s) := by
          have := congrArg (fun l => l.head?) hw2
          simpa using this.symm
        have hm2 : m2 = w' ++ Q := by
          have := congrArg List.tail hw2
          simpa using this
        refine ⟨m1, w' ++ a :: Q, ?_, hfree1⟩
        rw [hsort, h1, hw1, hx]
        simp

theorem cmStep_cases (thr : Nat) (cm : List (Str × Nat)) (e : Str × Nat) :
    cmStep thr cm e = cm ∨ cmStep thr cm e = dictSet cm e.1 e.2 := by
  unfold cmStep
  by_cases ht : thr ≤ e.2
  · rw [if_pos ht]
    rcases dictGet cm e.1 with _ | s0
    · exact Or.inr rfl
    · dsimp only
      by_cases hgt : s0 < e.2
      · rw [if_pos hgt]
        exact Or.inr rfl
      · rw [if_neg hgt]
        exact Or.inl rfl
  · rw [if_neg ht]
    exact Or.inl rfl

theorem cmStep_mem {thr : Nat} {cm : List (Str × Nat)} {e a : Str × Nat}
    (h : a ∈ cmStep thr cm e) : a = (e.1, e.2) ∨ a ∈ cm := by
  rcases cmStep_cases thr cm e with hc | hc
  · rw [hc] at h
    exact Or.inr h
  · rw [hc] at h
    exact mem_dictSet (a := a.1) (w := a.2) (by
      rw [show ((a.1, a.2) : Str × Nat) = a from rfl]
      exact h)

theorem cmFold_free (thr : Nat) {es : List (Str × Nat)} {cm0 : List (Str × Nat)}
    {n2 : Str} (hes : ∀ e ∈ es, e.1 ≠ n2) (h0 : n2 ∉ cm0.map Prod.fst) :
    n2 ∉ ((es.foldl (cmStep thr) cm0).map Prod.fst) := by
  intro hc
  rcases (cmFold_keys thr es cm0 n2).mp hc with hc | ⟨v, hv, _⟩
  · exact h0 hc
  · exact hes (n2, v) hv rfl

theorem cmFold_val (thr : Nat) (es : List (Str × Nat)) (k : Str) (s : Nat) :
    ∀ (cm0 : List (Str × Nat)),
    (∀ e ∈ es, e.1 = k → e.2 = s) → (∀ v, (k, v) ∈ cm0 → v = s) →
    ∀ v, (k, v) ∈ es.foldl (cmStep thr) cm0 → v = s := by
  induction es with
  | nil => exact fun cm0 _ h0 => h0
  | cons e t ih =>
    intro cm0 hes h0 v hv
    refine ih (cmStep thr cm0 e)
      (fun x hx hk => hes x (List.mem_cons_of_mem e hx) hk) ?_ v hv
    intro w hw
    rcases cmStep_mem hw with hc | hc
    · have h1 : e.1 = k := (congrArg Prod.fst hc).symm
      have h2 : e.2 = w := (congrArg Prod.snd hc).symm
      rw [← h2]
      exact hes e (List.mem_cons_self e t) h1
    · exact h0 w hc

theorem cmFold_shape (thr : Nat) (es : List (Str × Nat)) (n1 n2 : Str) (s : Nat)
    (hval1 : ∀ e ∈ es, e.1 = n1 → e.2 = s) :
    ∀ (c1 c2 : List (Str × Nat)),
    n2 ∉ c1.map Prod.fst →
    (((c1 ++ (n1, s) :: c2).map Prod.fst).Nodup) →
    ∃ d1 d2, es.foldl (cmStep thr) (c1 ++ (n1, s) :: c2) = d1 ++ (n1, s) :: d2 ∧
      n2 ∉ d1.map Prod.fst ∧ ((d1 ++ (n1, s) :: d2).map Prod.fst).Nodup := by
  induction es with
  | nil => exact fun c1 c2 hf hn => ⟨c1, c2, rfl, hf, hn⟩
  | cons e t ih =>
    intro c1 c2 hf hn
    have hn1c1 : n1 ∉ c1.map Prod.fst := by
      intro hc
      have hn2 := hn
      rw [List.map_append] at hn2
      rcases List.nodup_append.mp hn2 with ⟨_, _, hdisj⟩
      exact hdisj hc (by simp)
    have htail : ∀ x ∈ t, x.1 = n1 → x.2 = s :=
      fun x hx => hval1 x (List.mem_cons_of_mem e hx)
    rcases cmStep_cases thr (c1 ++ (n1, s) :: c2) e with hc | hc
    · rw [List.foldl_cons, hc]
      exact ih htail c1 c2 hf hn
    · rw [List.foldl_cons, hc]
      by_cases hk1 : e.1 ∈ c1.map Prod.fst
      · rw [dictSet_append_left _ e.2 hk1]
        refine ih htail (dictSet c1 e.1 e.2) c2 ?_ ?_
        · intro hmem
          rcases (keys_dictSet c1 e.1 n2 e.2).mp hmem with hmem | hmem
          · rw [hmem] at hf
            exact hf hk1
          · exact hf hmem
        · rw [← dictSet_append_left _ e.2 hk1]
          exact nodup_keys_dictSet e.1 e.2 hn
      · by_cases hke : e.1 = n1
        · have hv : e.2 = s := hval1 e (List.mem_cons_self e t) hke
          have hset : dictSet ((n1, s) :: c2) e.1 e.2 = (n1, s) :: c2 := by
            simp only [dictSet]
            rw [if_pos hke.symm, hke, hv]
          rw [dictSet_append_right _ e.2 (hke ▸ hn1c1), hset]
          exact ih htail c1 c2 hf hn
        · have hset : dictSet ((n1, s) :: c2) e.1 e.2 =
              (n1, s) :: dictSet c2 e.1 e.2 := by
            simp only [dictSet]
            rw [if_neg (fun hcc => hke hcc.symm)]
          have hnodup2 : ((c1 ++ (n1, s) :: dictSet c2 e.1 e.2).map Prod.fst).Nodup := by
            rw [← hset, ← dictSet_append_right _ e.2 hk1]
            exact nodup_keys_dictSet e.1 e.2 hn
          rw [dictSet_append_right _ e.2 hk1, hset]
          exact ih htail c1 (dictSet c2 e.1 e.2) hf hnodup2

theorem cmStep_pivot (thr : Nat) (cm : List (Str × Nat)) (n1 n2 : Str) (s : Nat)
    (hthr : thr ≤ s)
    (hfree : n2 ∉ cm.map Prod.fst)
    (hval : ∀ v, (n1, v) ∈ cm → v = s)
    (hnodup : (cm.map Prod.fst).Nodup) :
    ∃ c1 c2, cmStep thr cm (n1, s) = c1 ++ (n1, s) :: c2 ∧
      n2 ∉ c1.map Prod.fst ∧ (((c1 ++ (n1, s) :: c2).map Prod.fst)).Nodup := by
  unfold cmStep
  rw [if_pos hthr]
  rcases hg : dictGet cm n1 with _ | s0
  · dsimp only
    rw [dictSet_of_get_none _ hg]
    refine ⟨cm, [], rfl, hfree, ?_⟩
    rw [← dictSet_of_get_none _ hg]
    exact nodup_keys_dictSet _ _ hnodup
  · dsimp only
    have hs0 : s0 = s := hval s0 (dictGet_mem hg)
    rw [if_neg (by rw [hs0]; exact lt_irrefl _)]
    rcases dictGet_some_decomp hg with ⟨c1, c2, hd, _⟩
    rw [hs0] at hd
    refine ⟨c1, c2, hd, ?_, by rw [← hd]; exact hnodup⟩
    intro hc
    apply hfree
    rw [hd, List.map_append]
    exact List.mem_append_left _ hc

theorem mem_scored_map {g : Str → Nat} {l : List Str} {e : Str × Nat}
    (he : e ∈ l.map (fun m => (m, g m))) : e.1 ∈ l ∧ e.2 = g e.1 := by
  rcases List.mem_map.mp he with ⟨m, hm, hme⟩
  have h1 : e.1 = m := by rw [← hme]
  have h2 : e.2 = g m := by rw [← hme]
  refine ⟨h1 ▸ hm, ?_⟩
  rw [h2, h1]

theorem scored_split_val {g : Str → Nat} {l1 l2 : List Str} {n1 : Str}
    {e : Str × Nat}
    (he : e ∈ (l1.map (fun m => (m, g m))) ++ (n1, g n1) ::
      (l2.map (fun m => (m, g m)))) : e.2 = g e.1 := by
  rcases List.mem_append.mp he with he | he
  · exact (mem_scored_map he).2
  · rcases List.mem_cons.mp he with he | he
    · rw [he]
    · exact (mem_scored_map he).2

/-- **C3, amended.**  For an attribute with a single candidate (no synonym
entry applies), score ties are broken by the original layer-field iteration
order: if the normalized fields `n1` (earlier, with no occurrence of `n2`
before it) and `n2` carry equal qualifying scores and `n1` is still
unused, the selection the mapper performs for that attribute cannot pick
`n2` — and it does pick some field.  (With synonyms, insertion order of
the candidate-match table decides instead — see the counterexample.) -/
theorem tie_break_single_candidate
    (attr : Str) (syns : List (Str × List Str)) (fields : List Str) (thr : Nat)
    (used : List Str) (n1 n2 : Str) (l1 l2 : List Str)
    (hsyn : dictGet syns (attr.map pyLowerChar) = none)
    (hsplit : fields.map normalize_str = l1 ++ n1 :: l2)
    (hn2l1 : n2 ∉ l1) (hne : n1 ≠ n2)
    (hscore : candidate_score (normalize_str attr) n1 =
      candidate_score (normalize_str attr) n2)
    (hthr : thr ≤ candidate_score (normalize_str attr) n1)
    (hused : n1 ∉ used) :
    pickBest (sortDescByScore (buildCandidateMatches (candidatesOf syns attr)
      (fields.map normalize_str) thr)) used ≠ some n2 ∧
    pickBest (sortDescByScore (buildCandidateMatches (candidatesOf syns attr)
      (fields.map normalize_str) thr)) used ≠ none := by
  have hcand : candidatesOf syns attr = [normalize_str attr] := by
    unfold candidatesOf
    rw [hsyn]
  have hb1 : buildCandidateMatches [normalize_str attr]
      (fields.map normalize_str) thr =
      (process_extract (normalize_str attr) (fields.map normalize_str)).foldl
        (cmStep thr) [] := by
    unfold buildCandidateMatches
    rw [List.foldl_cons, List.foldl_nil]
  have hb2 : process_extract (normalize_str attr) (fields.map normalize_str) =
      sortDescByScore ((fields.map normalize_str).map
        (fun m => (m, candidate_score (normalize_str attr) m))) := by
    unfold process_extract candidate_score
    rfl
  rw [hsplit] at hb1
  rw [hsplit, List.map_append, List.map_cons] at hb2
  -- facts about the unsorted scored list
  have hbase_free : ∀ e ∈ l1.map
      (fun m => (m, candidate_score (normalize_str attr) m)), e.1 ≠ n2 := by
    intro e he hc
    exact hn2l1 (hc ▸ (mem_scored_map he).1)
  have hbase_val : ∀ e ∈ (l1.map (fun m => (m, candidate_score (normalize_str attr) m))) ++
      (n1, candidate_score (normalize_str attr) n1) ::
      (l2.map (fun m => (m, candidate_score (normalize_str attr) m))),
      e.1 = n2 → e.2 = candidate_score (normalize_str attr) n1 := by
    intro e he hk
    rw [scored_split_val he, hk]
    exact hscore.symm
  -- sort keeps the pivot before every n2 entry
  rcases sortDesc_pivot n1 n2 (candidate_score (normalize_str attr) n1) _ _
    hbase_free hbase_val with ⟨m1, m2, hsorted, hm1free⟩
  -- entries of the sorted segments still score their own key
  have hseg : ∀ e ∈ m1 ++ (n1, candidate_score (normalize_str attr) n1) :: m2,
      e.2 = candidate_score (normalize_str attr) e.1 := by
    intro e he
    rw [← hsorted] at he
    exact scored_split_val (mem_sortDesc.mp he)
  have hseg_val : ∀ e ∈ m1 ++ (n1, candidate_score (normalize_str attr) n1) :: m2,
      e.1 = n1 → e.2 = candidate_score (normalize_str attr) n1 := by
    intro e he hk
    rw [hseg e he, hk]
  have hseg_val_n2 : ∀ e ∈ m1 ++ (n1, candidate_score (normalize_str attr) n1) :: m2,
      e.1 = n2 → e.2 = candidate_score (normalize_str attr) n1 := by
    intro e he hk
    rw [hseg e he, hk]
    exact hscore.symm
  rw [hcand, hsplit, hb1, hb2, hsorted, List.foldl_append, List.foldl_cons]
  -- stage A: folding the entries before the pivot
  have hAfree : n2 ∉ ((m1.foldl (cmStep thr) []).map Prod.fst) :=
    cmFold_free thr hm1free (by simp)
  have hAval : ∀ v, (n1, v) ∈ m1.foldl (cmStep thr) [] →
      v = candidate_score (normalize_str attr) n1 :=
    cmFold_val thr m1 n1 _ []
      (fun e he => hseg_val e (List.mem_append_left _ he)) (by simp)
  have hAnodup : (((m1.foldl (cmStep thr) []).map Prod.fst)).Nodup :=
    cmFold_nodup thr m1 (by simp)
  -- the pivot entry itself enters (or already sits in) the table
  have hpivot := cmStep_pivot thr (m1.foldl (cmStep thr) []) n1 n2
    (candidate_score (normalize_str attr) n1) hthr hAfree hAval hAnodup
  rcases hpivot with ⟨c1, c2, hcB, hc1free, hcBnodup⟩
  rw [hcB]
  -- stage B: folding the entries after the pivot keeps the shape
  rcases cmFold_shape thr m2 n1 n2 (candidate_score (normalize_str attr) n1)
    (fun e he => hseg_val e (List.mem_append_right _ (List.mem_cons_of_mem _ he)))
    c1 c2 hc1free hcBnodup with ⟨d1, d2, hD, hd1free, _⟩
  rw [hD]
  -- every n2 entry of the final table still carries the tied score
  have hDval : ∀ e ∈ d1 ++ (n1, candidate_score (normalize_str attr) n1) :: d2,
      e.1 = n2 → e.2 = candidate_score (normalize_str attr) n1 := by
    intro e he hk
    rw [← hD] at he
    have hmem2 : (n2, e.2) ∈ m2.foldl (cmStep thr)
        (c1 ++ (n1, candidate_score (normalize_str attr) n1) :: c2) := by
      rw [← hk]
      exact he
    refine cmFold_val thr m2 n2 _ _
      (fun x hx hxk => hseg_val_n2 x
        (List.mem_append_right _ (List.mem_cons_of_mem _ hx)) hxk) ?_ e.2 hmem2
    intro v hv
    rw [← hcB] at hv
    rcases cmStep_mem hv with hcase | hcase
    · exact absurd (congrArg Prod.fst hcase).symm hne
    · exact cmFold_val thr m1 n2 _ []
        (fun x hx hxk => hseg_val_n2 x (List.mem_append_left _ hx) hxk)
        (by simp) v hcase
  -- final sort keeps the pivot before every n2 entry
  rcases sortDesc_pivot n1 n2 (candidate_score (normalize_str attr) n1) d1 d2
    (fun e he hc => hd1free (List.mem_map.mpr ⟨e, he, hc⟩)) hDval with
    ⟨sm1, sm2, hsm, hsm1free⟩
  rw [hsm]
  constructor
  · exact pickBest_prefers_earlier hne hused hsm1free
  · exact pickBest_isSome
      (List.mem_append_right sm1 (List.mem_cons_self _ sm2)) hused

/-- **C3, counterexample.**  With the synonym `nome ↦ abc`, both layer
fields `abc` (earlier) and `nome` (later) reach the tied qualifying score
100 for attribute `nome`, and `abc` is unused — yet the mapper picks the
later field `nome`, because the synonym candidate inserted `nome` into the
candidate-match table first.  The tie is NOT broken by layer-field order
on every call. -/
theorem tie_break_counterexample :
    dictGet (buildCandidateMatches
      (candidatesOf [("nome".toList, ["abc".toList])] "nome".toList)
      (["abc".toList, "nome".toList].map normalize_str) 80) "abc".toList =
      some 100 ∧
    dictGet (buildCandidateMatches
      (candidatesOf [("nome".toList, ["abc".toList])] "nome".toList)
      (["abc".toList, "nome".toList].map normalize_str) 80) "nome".toList =
      some 100 ∧
    auto_map_core ["nome".toList] ["abc".toList, "nome".toList]
      [("nome".toList, ["abc".toList])] 80 =
      [("nome".toList, some "nome".toList)] :=
  ⟨by decide, by decide, by rfl⟩

/-- **C3, amended, witness.**  Attribute `x` against fields `xa` and `xb`
(both scoring 100, no synonyms): the selection picks a field and it is not
the later tied field `xb`. -/
theorem tie_break_single_candidate_witness :
    pickBest (sortDescByScore (buildCandidateMatches (candidatesOf [] "x".toList)
      (["xa".toList, "xb".toList].map normalize_str) 80)) [] ≠ some "xb".toList ∧
    pickBest (sortDescByScore (buildCandidateMatches (candidatesOf [] "x".toList)
      (["xa".toList, "xb".toList].map normalize_str) 80)) [] ≠ none :=
  tie_break_single_candidate "x".toList [] ["xa".toList, "xb".toList] 80 []
    "xa".toList "xb".toList [] ["xb".toList]
    (by rfl) (by decide) (by decide) (by decide) (by decide) (by decide)
    (by decide)
